import Mathlib

/-!
# nogc: off-heap arrays of flat Go values

A shallow embedding of `nogc.go` (package `nogc`): the reflective type
validator (`TypeValidate`, `typeValidate`) and the `Datum` container
(`NewDatum`, `NbObjects`, `Read`, `Write`, `Pointer`, `Delete`).

Conventions of the embedding.

* Machine words are 64 bits wide.  `uintptr` and `uint` values are natural
  numbers reduced modulo `2^64` where the source can overflow; `int` is an
  integer, and the conversions `int(·)` / `uintptr(·)` are `toInt` / `toWord`.
  A count `n` of type `uint` is a natural number below `2^64`.
* A type is what `reflect` tells of it, names included: two type
  descriptions are equal exactly when Go has one `reflect.Type` for them.
* A Go value of a flat type is its type together with the bytes of its
  in-memory representation.
* Process memory is explicit state (`World`): the byte stored at each
  address, which addresses are currently mapped, the list of memory-mapping
  requests issued so far and the registered finalizers.
* `syscall.Mmap` / `syscall.Munmap` and the allocations on the Go heap are
  answered by an `OS` value, so every result about the package holds for
  whatever the operating system and the runtime answer.
* A Go panic or a memory fault is an explicit `Fault` result.
-/

namespace Nogc

/-! ## Types as seen through `reflect` -/

/-- The kinds of `reflect.Kind`, in declaration order. -/
inductive Kind where
  | Invalid | Bool | Int | Int8 | Int16 | Int32 | Int64
  | Uint | Uint8 | Uint16 | Uint32 | Uint64 | Uintptr
  | Float32 | Float64 | Complex64 | Complex128
  | Array | Chan | Func | Interface | Map | Pointer | Slice | String | Struct
  | UnsafePointer
deriving DecidableEq, Repr

/-- The result of `reflect.Kind.String` (the name `Kind.String` is taken by
the kind of strings). -/
def kindString : Kind → String
  | .Invalid => "invalid"
  | .Bool => "bool"
  | .Int => "int"
  | .Int8 => "int8"
  | .Int16 => "int16"
  | .Int32 => "int32"
  | .Int64 => "int64"
  | .Uint => "uint"
  | .Uint8 => "uint8"
  | .Uint16 => "uint16"
  | .Uint32 => "uint32"
  | .Uint64 => "uint64"
  | .Uintptr => "uintptr"
  | .Float32 => "float32"
  | .Float64 => "float64"
  | .Complex64 => "complex64"
  | .Complex128 => "complex128"
  | .Array => "array"
  | .Chan => "chan"
  | .Func => "func"
  | .Interface => "interface"
  | .Map => "map"
  | .Pointer => "ptr"
  | .Slice => "slice"
  | .String => "string"
  | .Struct => "struct"
  | .UnsafePointer => "unsafe.Pointer"

/-- The predeclared types that have no component types. -/
inductive Basic where
  | Bool | Int | Int8 | Int16 | Int32 | Int64
  | Uint | Uint8 | Uint16 | Uint32 | Uint64 | Uintptr
  | Float32 | Float64 | Complex64 | Complex128 | String | UnsafePointer
deriving DecidableEq, Repr

/-- The kind of a predeclared type. -/
def Basic.Kind : Basic → Kind
  | .Bool => .Bool
  | .Int => .Int
  | .Int8 => .Int8
  | .Int16 => .Int16
  | .Int32 => .Int32
  | .Int64 => .Int64
  | .Uint => .Uint
  | .Uint8 => .Uint8
  | .Uint16 => .Uint16
  | .Uint32 => .Uint32
  | .Uint64 => .Uint64
  | .Uintptr => .Uintptr
  | .Float32 => .Float32
  | .Float64 => .Float64
  | .Complex64 => .Complex64
  | .Complex128 => .Complex128
  | .String => .String
  | .UnsafePointer => .UnsafePointer

/-- What `reflect.StructField` tells of a field besides its type, as far as
it enters the identity of the struct type: the name, the package path of a
name that is not exported, the tag, and whether the field is embedded. -/
structure StructField where
  Name : String
  PkgPath : String
  Tag : String
  Anonymous : Bool
deriving DecidableEq, Repr

/-- An exported field called `name`, without tag, not embedded. -/
def fieldNamed (name : String) : StructField :=
  { Name := name, PkgPath := "", Tag := "", Anonymous := false }

mutual
/-- A type description (`reflect.Type`).  Two descriptions are equal exactly
when `reflect` gives the same `Type`: a defined (named) type is `named` with
its package path and name around its underlying type, so that two defined
types of the same layout differ, and differ from their underlying type.
Function signatures and interface method sets are not inspected by the
package and are left out; no flat type contains either. -/
inductive RType where
  | basic (b : Basic)
  | array (len : Nat) (elem : RType)
  | chan (elem : RType)
  | func
  | interface
  | map (key : RType) (elem : RType)
  | ptr (elem : RType)
  | slice (elem : RType)
  | struct (fields : Fields)
  | named (pkgPath : String) (name : String) (underlying : RType)
deriving DecidableEq
/-- The fields of a struct type, in declaration order. -/
inductive Fields where
  | nil
  | cons (info : StructField) (type : RType) (rest : Fields)
deriving DecidableEq
end

/-- The result of `reflect.Type.Kind`. -/
def RType.Kind : RType → Kind
  | .basic b => b.Kind
  | .array _ _ => .Array
  | .chan _ => .Chan
  | .func => .Func
  | .interface => .Interface
  | .map _ _ => .Map
  | .ptr _ => .Pointer
  | .slice _ => .Slice
  | .struct _ => .Struct
  | .named _ _ underlying => underlying.Kind

/-- The field types of a struct, in declaration order: `t.Field(i).Type`
for `i = 0 .. t.NumField() - 1`. -/
def Fields.types : Fields → List RType
  | .nil => []
  | .cons _ t rest => t :: rest.types

/-- Size in bytes of a predeclared type on a 64-bit target. -/
def Basic.Size : Basic → Nat
  | .Bool | .Int8 | .Uint8 => 1
  | .Int16 | .Uint16 => 2
  | .Int32 | .Uint32 | .Float32 => 4
  | .Int | .Int64 | .Uint | .Uint64 | .Uintptr | .Float64 | .Complex64
  | .UnsafePointer => 8
  | .Complex128 | .String => 16

/-- Alignment in bytes of a predeclared type on a 64-bit target. -/
def Basic.Align : Basic → Nat
  | .Bool | .Int8 | .Uint8 => 1
  | .Int16 | .Uint16 => 2
  | .Int32 | .Uint32 | .Float32 | .Complex64 => 4
  | .Int | .Int64 | .Uint | .Uint64 | .Uintptr | .Float64 | .Complex128
  | .String | .UnsafePointer => 8

/-- Round `o` up to the next multiple of `a`. -/
def roundUp (o a : Nat) : Nat := (o + a - 1) / a * a

mutual
/-- The result of `reflect.Type.Size`: the byte size of one value, following
the layout of the Go toolchain on a 64-bit target. -/
def RType.Size : RType → Nat
  | .basic b => b.Size
  | .array len elem => len * elem.Size
  | .chan _ => 8
  | .func => 8
  | .interface => 16
  | .map _ _ => 8
  | .ptr _ => 8
  | .slice _ => 24
  | .struct fields =>
    let o := fields.endOffset 0
    let o := if 0 < o ∧ fields.lastZero then o + 1 else o
    roundUp o (max 1 fields.maxAlign)
  | .named _ _ underlying => underlying.Size
/-- The alignment of a type. -/
def RType.Align : RType → Nat
  | .basic b => b.Align
  | .array _ elem => elem.Align
  | .struct fields => max 1 fields.maxAlign
  | .named _ _ underlying => underlying.Align
  | _ => 8
/-- The offset just past the last field when the fields are laid out from
offset `o`, each at the next multiple of its alignment. -/
def Fields.endOffset : Fields → Nat → Nat
  | .nil, o => o
  | .cons _ t rest, o => rest.endOffset (roundUp o t.Align + t.Size)
/-- The largest alignment among the fields (`0` when there is none). -/
def Fields.maxAlign : Fields → Nat
  | .nil => 0
  | .cons _ t rest => max t.Align rest.maxAlign
/-- Whether the last field exists and has size zero. -/
def Fields.lastZero : Fields → Bool
  | .nil => false
  | .cons _ t .nil => t.Size == 0
  | .cons _ _ rest => rest.lastZero
end

/-! ## Errors, faults and values -/

/-- A non-nil Go `error`: the package's own `Error` string type, or an error
number reported by a system call (`syscall.Errno`). -/
inductive GoError where
  | Error (msg : String)
  | Errno (code : Nat)
deriving DecidableEq, Repr

/-- An abnormal end of a call. -/
inductive Fault where
  -- a panic carrying a message, raised by the source or by package reflect
  | panic (msg : String)
  -- the run-time panic: index out of range [idx] with length len
  | indexOutOfRange (idx len : Nat)
  -- the run-time panic: integer divide by zero
  | divideByZero
  -- a load or store at an address that is not mapped
  | segv
  -- a fatal error of the runtime, which ends the process
  | fatal (msg : String)
deriving DecidableEq, Repr

deriving instance DecidableEq for Except

/-- A Go value: its dynamic type and the bytes of its representation, as
many as the size of the type. -/
structure Value where
  typ : RType
  bytes : List Nat
  wf : bytes.length = typ.Size
deriving DecidableEq

/-- An `interface{}` argument: `none` is the nil interface. -/
abbrev Iface := Option Value

/-- Go-syntax quoting of a plain string, as `%#v` prints a string. -/
def quote (s : String) : String :=
  String.singleton (Char.ofNat 34) ++ s ++ String.singleton (Char.ofNat 34)

/-! ## The type validator -/

/-- The kinds of the first `case` of the `switch` in `typeValidate`. -/
def scalarKind : Kind → Bool
  | .Bool | .Int | .Int8 | .Int16
  | .Int32 | .Int64 | .Uint | .Uint8 | .Uint16
  | .Uint32 | .Uint64 | .Uintptr | .Float32
  | .Float64 | .Complex64 | .Complex128 | .UnsafePointer => true
  | _ => false

mutual
/-- The function `typeValidate` of the source: `none` is the nil error.  The
patterns are the `Array` case, the `Struct` case and, for every other kind,
the scalar case or the `default` case of the `switch`.  A defined type has
the kind, the element type and the fields of its underlying type, so the
`switch` treats it as it treats the underlying type. -/
def typeValidate : RType → Option GoError
  | .array _ elem => typeValidate elem
  | .struct fields => typeValidateFields fields
  | .named _ _ underlying => typeValidate underlying
  | t =>
    if scalarKind t.Kind then none
    else some (.Error ("invalid type: " ++ quote (kindString t.Kind)))
/-- The loop over the fields of a struct in `typeValidate`: the first error
is returned at once. -/
def typeValidateFields : Fields → Option GoError
  | .nil => none
  | .cons _ t rest =>
    match typeValidate t with
    | some err => some err
    | none => typeValidateFields rest
end

/-- The function `TypeValidate` of the source: the nil interface has no valid
`reflect.Value` and is rejected before any type is inspected. -/
def TypeValidate (i : Iface) : Option GoError :=
  match i with
  | none => some (.Error ("invalid type: " ++ "<invalid reflect.Value>"))
  | some v => typeValidate v.typ

/-! ### The flat types, in the words of the specification -/

/-- The kinds the specification lists as flat. -/
def flatKinds : List Kind :=
  [.Bool, .Int, .Int8, .Int16, .Int32, .Int64, .Uint, .Uint8, .Uint16, .Uint32,
   .Uint64, .Uintptr, .Float32, .Float64, .Complex64, .Complex128, .UnsafePointer]

/-- The kinds the specification lists as not flat. -/
def nonFlatKinds : List Kind :=
  [.Pointer, .String, .Slice, .Map, .Chan, .Func, .Interface]

mutual
/-- The kinds of the leaves reached from a type by recursing through array
element types and struct field types (those of the underlying type, for a
defined type), in depth-first order. -/
def leafKinds : RType → List Kind
  | .array _ elem => leafKinds elem
  | .struct fields => leafKindsFields fields
  | .named _ _ underlying => leafKinds underlying
  | t => [t.Kind]
/-- The leaves of all the fields of a struct. -/
def leafKindsFields : Fields → List Kind
  | .nil => []
  | .cons _ t rest => leafKinds t ++ leafKindsFields rest
end

/-! ## Machine words -/

/-- The conversion `uintptr(i)` of an `int`: reduction modulo `2^64`. -/
def toWord (i : Int) : Nat := (i % 2 ^ 64).toNat

/-- The conversion `int(u)` of a word: the signed reading of its 64 bits. -/
def toInt (u : Nat) : Int :=
  if u % 2 ^ 64 < 2 ^ 63 then ((u % 2 ^ 64 : Nat) : Int)
  else ((u % 2 ^ 64 : Nat) : Int) - 2 ^ 64

/-- The largest size the Go runtime accepts for one heap object on a 64-bit
target (`maxAlloc`). -/
def maxAlloc : Nat := 2 ^ 48

/-! ## Memory and the operating system -/

/-- A `[]byte` whose capacity equals its length: first address and length. -/
structure ByteSlice where
  Data : Nat
  Len : Nat
deriving DecidableEq, Repr

/-- A `reflect.Value` holding a slice: element type, address of the first
element and number of elements. -/
structure SliceValue where
  elem : RType
  Data : Nat
  Len : Nat
deriving DecidableEq

/-- The struct `Datum` of the source.  For `slice`, `none` is the zero
`reflect.Value`; for `bytes`, `none` is the nil slice. -/
structure Datum where
  chunkSize : Nat
  objSize : Nat
  slice : Option SliceValue
  bytes : Option ByteSlice
deriving DecidableEq

/-- The zero value `Datum{}`. -/
def Datum.zero : Datum := { chunkSize := 0, objSize := 0, slice := none, bytes := none }

/-- A call of one of the two memory-mapping functions of package `syscall`. -/
inductive Request where
  | mmap (length : Int)
  | munmap (data : Option ByteSlice)
deriving DecidableEq, Repr

/-- The state outside the `Datum` handle: the byte at each address, the
addresses that are currently mapped, the mapping requests issued so far
(oldest first) and the objects a finalizer is registered on. -/
structure World where
  mem : Nat → Nat
  mapped : Nat → Bool
  requests : List Request
  finalizers : List Datum

/-- The answers of the system under the package.  `Mmap` gives an error
number or the first address of the new mapping; the answer `.ok base` for a
length means that so many bytes from `base` are mapped and can be read and
written.  `Munmap` gives an error number or success.  `HeapAlloc` tells
whether the Go heap can supply an object of so many bytes. -/
structure OS where
  Mmap : Int → Except Nat Nat
  Munmap : Option ByteSlice → Option Nat
  HeapAlloc : Nat → Bool

/-- The error number `EINVAL`. -/
def EINVAL : Nat := 22

/-- The error number `ENOMEM`. -/
def ENOMEM : Nat := 12

/-- An operating system as package `syscall` presents it on Linux when
memory is plentiful: `Mmap` rejects a length that is not positive with
`EINVAL` and otherwise maps at `base`; `Munmap` rejects an empty slice with
`EINVAL` and otherwise succeeds; the Go heap supplies every object. -/
def linux (base : Nat) : OS where
  Mmap length := if length ≤ 0 then .error EINVAL else .ok base
  Munmap data :=
    match data with
    | none => some EINVAL
    | some b => if b.Len = 0 then some EINVAL else none
  HeapAlloc _ := true

/-- An operating system that refuses every request with `ENOMEM`. -/
def exhausted : OS where
  Mmap _ := .error ENOMEM
  Munmap _ := some ENOMEM
  HeapAlloc _ := false

/-- A system like `linux base` whose Go heap cannot supply any object: the
mappings are granted, the heap allocations are not. -/
def heapFull (base : Nat) : OS where
  Mmap length := if length ≤ 0 then .error EINVAL else .ok base
  Munmap data :=
    match data with
    | none => some EINVAL
    | some b => if b.Len = 0 then some EINVAL else none
  HeapAlloc _ := false

/-- Whether all of the `size` bytes from address `a` are mapped. -/
def World.covered (w : World) (a size : Nat) : Bool :=
  (List.range size).all (fun k => w.mapped (a + k))

/-- The `size` bytes stored from address `a`. -/
def World.load (w : World) (a size : Nat) : List Nat :=
  (List.range size).map (fun k => w.mem (a + k))

/-- The world after the bytes `bs` are stored from address `a`. -/
def World.store (w : World) (a : Nat) (bs : List Nat) : World :=
  { w with mem := fun p => if a ≤ p ∧ p < a + bs.length then bs.getD (p - a) 0 else w.mem p }

/-- The call `syscall.Mmap(0, 0, length, PROT_READ|PROT_WRITE, MAP_PRIVATE)`:
the request is recorded; on success the returned slice spans `length` bytes
and those addresses become mapped. -/
def Mmap (os : OS) (length : Int) (w : World) : Except GoError ByteSlice × World :=
  let w1 : World := { w with requests := w.requests ++ [.mmap length] }
  match os.Mmap length with
  | .error e => (.error (.Errno e), w1)
  | .ok base =>
    (.ok { Data := base, Len := length.toNat },
     { w1 with mapped := fun p => decide (base ≤ p ∧ p < base + length.toNat) || w1.mapped p })

/-- The call `syscall.Munmap(data)`: the request is recorded; on success the
addresses of `data` are no longer mapped. -/
def Munmap (os : OS) (data : Option ByteSlice) (w : World) : Option GoError × World :=
  let w1 : World := { w with requests := w.requests ++ [.munmap data] }
  match os.Munmap data with
  | some e => (some (.Errno e), w1)
  | none =>
    match data with
    | none => (none, w1)
    | some b =>
      (none, { w1 with mapped := fun p => !decide (b.Data ≤ p ∧ p < b.Data + b.Len) && w1.mapped p })

/-! ## The `Datum` container -/

/-- The call `reflect.MakeSlice(reflect.SliceOf(t), len, len)`.  It panics on
a negative length.  It allocates an array of `len` elements, `t.Size() * len`
bytes, on the Go heap: that fails when the size exceeds what the runtime
accepts (a panic for an array of several elements, a fatal error for a
single one), and with the fatal error "out of memory" when the heap cannot
supply the bytes; an array of no bytes needs no memory.  The contents of
the heap array are not modelled: `NewDatum` replaces its address before any
use. -/
def MakeSlice (os : OS) (t : RType) (len : Int) : Except Fault SliceValue :=
  if len < 0 then .error (.panic "reflect.MakeSlice: negative len")
  else if maxAlloc < t.Size * len.toNat then
    (if len = 1 then .error (.fatal "runtime: out of memory")
     else .error (.panic "runtime: allocation size out of range"))
  else if t.Size * len.toNat ≠ 0 ∧ os.HeapAlloc (t.Size * len.toNat) = false then
    .error (.fatal "runtime: out of memory")
  else .ok { elem := t, Data := 0, Len := len.toNat }

/-- The call `s.Index(i)` on a slice value: the address of element `i`, or
the panic of `reflect` when `uint(i) >= uint(s.Len())`. -/
def SliceValue.Index (s : SliceValue) (i : Int) : Except Fault Nat :=
  if s.Len ≤ toWord i then .error (.panic "reflect: slice index out of range")
  else .ok (s.Data + toWord i * s.elem.Size)

/-- The method `NbObjects`: `uint(dt.chunkSize / dt.objSize)`. -/
def Datum.NbObjects (dt : Datum) : Except Fault Nat :=
  if dt.objSize = 0 then .error .divideByZero
  else .ok (dt.chunkSize / dt.objSize)

/-- The method `Read`: `dt.slice.Index(i).Interface()`. -/
def Datum.Read (dt : Datum) (w : World) (i : Int) : Except Fault Value :=
  match dt.slice with
  | none => .error (.panic "reflect: call of reflect.Value.Index on zero Value")
  | some s =>
    match s.Index i with
    | .error f => .error f
    | .ok a =>
      if w.covered a s.elem.Size then
        .ok { typ := s.elem, bytes := w.load a s.elem.Size,
              wf := by simp [World.load] }
      else .error .segv

/-- The method `Write`.  The receiver is a pointer, so the handle is
returned next to the result and the world. -/
def Datum.Write (dt : Datum) (i : Int) (v : Iface) (w : World) :
    Except Fault Iface × Datum × World :=
  match v with
  | none => (.error (.panic "reflect: call of reflect.Value.Type on zero Value"), dt, w)
  | some val =>
    match dt.slice with
    | none => (.error (.panic "reflect: call of reflect.Value.Type on zero Value"), dt, w)
    | some s =>
      if val.typ ≠ s.elem then (.error (.panic "illegal value"), dt, w)
      else
        match s.Index i with
        | .error f => (.error f, dt, w)
        | .ok a =>
          if w.covered a s.elem.Size then (.ok v, dt, w.store a val.bytes)
          else (.error .segv, dt, w)

/-- The method `Pointer`: `&dt.bytes[uintptr(i)*dt.objSize]` as a word. -/
def Datum.Pointer (dt : Datum) (i : Int) : Except Fault Nat :=
  let idx := (toWord i * dt.objSize) % 2 ^ 64
  match dt.bytes with
  | none => .error (.indexOutOfRange idx 0)
  | some b =>
    if idx < b.Len then .ok (b.Data + idx)
    else .error (.indexOutOfRange idx b.Len)

/-- The method `Delete`. -/
def Datum.Delete (os : OS) (dt : Datum) (w : World) : (Datum × Option GoError) × World :=
  match Munmap os dt.bytes w with
  | (some err, w1) => ((dt, some err), w1)
  | (none, w1) => (({ dt with chunkSize := 0, objSize := 1, bytes := none }, none), w1)

/-- The function passed to `runtime.SetFinalizer` by `NewDatum`, applied to
the object it was registered on. -/
def finalizer (os : OS) (chunk : Datum) (w : World) : Datum × World :=
  if chunk.bytes ≠ none then
    let r := chunk.Delete os w
    (r.1.1, r.2)
  else (chunk, w)

/-- The initialisation loop of `NewDatum`: `k` iterations from index `i` of
`slice.Index(i).Set(reflect.ValueOf(v))`. -/
def fill (slice : SliceValue) (v : Value) : Nat → Nat → World → Except Fault Unit × World
  | _, 0, w => (.ok (), w)
  | i, k + 1, w =>
    match slice.Index (i : Int) with
    | .error f => (.error f, w)
    | .ok a =>
      if w.covered a slice.elem.Size then fill slice v (i + 1) k (w.store a v.bytes)
      else (.error .segv, w)

/-- The function `NewDatum`.  The outer result is a fault or the pair the
source returns.  The one allocation on the Go heap that grows with the
arguments, the array of `reflect.MakeSlice`, can fail; the few objects of
fixed size the function allocates besides (the slice header, `ret`) are
taken as supplied. -/
def NewDatum (os : OS) (v : Iface) (n : Nat) (w : World) :
    Except Fault (Datum × Option GoError) × World :=
  if n = 0 then (.ok (Datum.zero, some (.Error "`n` must be > 0")), w)
  else
    match TypeValidate v with
    | some err => (.ok (Datum.zero, some err), w)
    | none =>
      match v with
      | none =>
        (.error (.panic "runtime error: invalid memory address or nil pointer dereference"), w)
      | some val =>
        let t := val.typ
        let size := t.Size
        match Mmap os (toInt ((size * n) % 2 ^ 64)) w with
        | (.error err, w1) => (.ok (Datum.zero, some err), w1)
        | (.ok bytes, w1) =>
          match MakeSlice os t (toInt n) with
          | .error f => (.error f, w1)
          | .ok itf =>
            if bytes.Len = 0 then (.error (.indexOutOfRange 0 0), w1)
            else
              let slice : SliceValue := { itf with Data := bytes.Data }
              match fill slice val 0 slice.Len w1 with
              | (.error f, w2) => (.error f, w2)
              | (.ok _, w2) =>
                let ret : Datum :=
                  { chunkSize := (size * n) % 2 ^ 64, objSize := size,
                    slice := some slice, bytes := some bytes }
                (.ok (ret, none), { w2 with finalizers := ret :: w2.finalizers })

/-- The states of an allocated `Datum`: what a successful `NewDatum` returns,
and what successful `Write` calls make of it. -/
inductive Allocated (os : OS) : Datum → World → Prop where
  | new (v : Iface) (n : Nat) (w : World) (dt : Datum) (w1 : World) :
      n < 2 ^ 64 → NewDatum os v n w = (.ok (dt, none), w1) → Allocated os dt w1
  | write (dt : Datum) (w : World) (i : Int) (v r : Iface) (dt1 : Datum) (w1 : World) :
      Allocated os dt w → dt.Write i v w = (.ok r, dt1, w1) → Allocated os dt1 w1

/-- The element type of the view: `dt.slice.Type().Elem()`. -/
def Datum.elemType (dt : Datum) : Option RType := dt.slice.map SliceValue.elem

/-- The invariant of the allocated state: the element size is positive, the
chunk is `objSize × count` bytes with `count` the length of the view, the
byte slice spans exactly the chunk, the view starts where the byte slice
starts, and the whole chunk is mapped. -/
def Live (dt : Datum) (w : World) : Prop :=
  ∃ s b, dt.slice = some s ∧ dt.bytes = some b ∧
    0 < dt.objSize ∧ dt.objSize = s.elem.Size ∧ 0 < s.Len ∧
    dt.chunkSize = dt.objSize * s.Len ∧ dt.chunkSize ≤ maxAlloc ∧
    b.Data = s.Data ∧ b.Len = dt.chunkSize ∧
    ∀ p, s.Data ≤ p → p < s.Data + dt.chunkSize → w.mapped p = true

/-- The world of a fresh process: nothing is mapped, no request was issued,
no finalizer is registered. -/
def World.init : World :=
  { mem := fun _ => 0, mapped := fun _ => false, requests := [], finalizers := [] }

/-- The world right after a mapping of `len` bytes at `base` is granted. -/
def afterMmap (w : World) (len : Nat) (base : Nat) : World :=
  { mem := w.mem,
    mapped := fun p => decide (base ≤ p ∧ p < base + len) || w.mapped p,
    requests := w.requests ++ [.mmap (len : Int)],
    finalizers := w.finalizers }

/-! ## Concrete data -/

/-- The defined type `type Point struct { X, Y int32 }` of package `main`. -/
def Point : RType :=
  .named "main" "Point"
    (.struct (.cons (fieldNamed "X") (.basic .Int32) (.cons (fieldNamed "Y") (.basic .Int32) .nil)))

/-- The defined type `type Other struct { X, Y int32 }` of package `main`:
the layout of `Point` under another name. -/
def Other : RType :=
  .named "main" "Other"
    (.struct (.cons (fieldNamed "X") (.basic .Int32) (.cons (fieldNamed "Y") (.basic .Int32) .nil)))

/-- The value `Point{0, 0}`. -/
def point00 : Value := { typ := Point, bytes := [0, 0, 0, 0, 0, 0, 0, 0], wf := by decide }

/-- The value `Point{5, 7}`. -/
def point57 : Value := { typ := Point, bytes := [5, 0, 0, 0, 7, 0, 0, 0], wf := by decide }

/-- The value `Other{5, 7}`: the bytes of `Point{5, 7}`, another type. -/
def other57 : Value := { typ := Other, bytes := [5, 0, 0, 0, 7, 0, 0, 0], wf := by decide }

/-- The value `int32(7)`. -/
def int32Seven : Value := { typ := .basic .Int32, bytes := [7, 0, 0, 0], wf := by decide }

/-- The value `int64(0)`. -/
def int64Zero : Value :=
  { typ := .basic .Int64, bytes := [0, 0, 0, 0, 0, 0, 0, 0], wf := by decide }

/-- The value `struct{}{}`, of size zero. -/
def emptyStruct : Value := { typ := .struct .nil, bytes := [], wf := by decide }

/-- A zero value of type `[2]struct { ID int64; Inner struct { Name string } }`:
a string two levels down. -/
def nestedString : Value :=
  { typ := .array 2 (.struct (.cons (fieldNamed "ID") (.basic .Int64)
      (.cons (fieldNamed "Inner") (.struct (.cons (fieldNamed "Name") (.basic .String) .nil)) .nil))),
    bytes := List.replicate 48 0, wf := by decide }

/-- The Datum `NewDatum(Point{0, 0}, 4)` returns when the mapping is at 4096. -/
def pointDatum : Datum :=
  { chunkSize := 32, objSize := 8, slice := some { elem := Point, Data := 4096, Len := 4 },
    bytes := some { Data := 4096, Len := 32 } }

/-- The world after `NewDatum(Point{0, 0}, 4)` in a fresh process. -/
def pointWorld : World := (NewDatum (linux 4096) (some point00) 4 World.init).2

/-- The world after `NewDatum(Point{5, 7}, 4)` in a fresh process, whose
memory is all zero before the call. -/
def filledWorld : World := (NewDatum (linux 4096) (some point57) 4 World.init).2

/-- The Datum `pointDatum` after a successful `Delete`: the view is kept. -/
def deletedPoint : Datum :=
  { chunkSize := 0, objSize := 1, slice := some { elem := Point, Data := 4096, Len := 4 },
    bytes := none }

/-- The world after `pointDatum.Delete()`. -/
def deletedWorld : World := (pointDatum.Delete (linux 4096) pointWorld).2

/-- The world after `pointDatum.Delete()` followed by a second
`NewDatum(Point{5, 7}, 4)`, which the operating system maps at the address
just released. -/
def reusedWorld : World := (NewDatum (linux 4096) (some point57) 4 deletedWorld).2

/-- Whether address `p` lies in the byte slice of the Datum. -/
def Datum.owns (dt : Datum) (p : Nat) : Bool :=
  match dt.bytes with
  | none => false
  | some b => decide (b.Data ≤ p ∧ p < b.Data + b.Len)

/-- The handle and the world after `k` further calls of `Delete`, whatever
each of them returns. -/
def deletes (os : OS) : Nat → Datum → World → Datum × World
  | 0, dt, w => (dt, w)
  | k + 1, dt, w => deletes os k (dt.Delete os w).1.1 (dt.Delete os w).2

/-- An operating system that grants every mapping of positive length at
`base` and refuses every unmap request with `ENOMEM`. -/
def noUnmap (base : Nat) : OS where
  Mmap length := if length ≤ 0 then .error EINVAL else .ok base
  Munmap _ := some ENOMEM
  HeapAlloc _ := true

/-- The world after `NewDatum(Point{0, 0}, 4)` in a fresh process under
`noUnmap 4096`. -/
def stuckWorld : World := (NewDatum (noUnmap 4096) (some point00) 4 World.init).2

/-- The size invariant of the allocated state, on the handle alone: the
element size is positive, the chunk is `objSize × count` bytes with `count`
the length of the view, and the byte slice spans exactly the chunk. -/
def Datum.Sized (dt : Datum) : Prop :=
  ∃ s b, dt.slice = some s ∧ dt.bytes = some b ∧
    0 < dt.objSize ∧ dt.chunkSize = dt.objSize * s.Len ∧ b.Len = dt.chunkSize

/-- The fields `fs` followed by the fields `gs`. -/
def Fields.append : Fields → Fields → Fields
  | .nil, gs => gs
  | .cons f t rest, gs => .cons f t (rest.append gs)

/-- The kind of the first leaf, in depth-first order, that is not flat. -/
def firstOffender (t : RType) : Option Kind :=
  (leafKinds t).find? (fun k => decide (k ∉ flatKinds))

/-- A struct with a string after two flat fields and another offender, a
slice, behind it: `struct { A int8; B [3]float64; C string; D []int }`. -/
def stringThenSlice : RType :=
  .struct (.cons (fieldNamed "A") (.basic .Int8) (.cons (fieldNamed "B") (.array 3 (.basic .Float64))
    (.cons (fieldNamed "C") (.basic .String) (.cons (fieldNamed "D") (.slice (.basic .Int)) .nil))))

/-- The error `typeValidate` builds for an offending kind. -/
def invalidType (k : Kind) : GoError := .Error ("invalid type: " ++ quote (kindString k))

/-- The garbage collector runs the finalizer of the most recently registered
object: the function registered by `NewDatum` is applied to that object,
which is then dropped from the list. -/
def fireFinalizer (os : OS) (w : World) : World :=
  match w.finalizers with
  | [] => w
  | chunk :: rest => (finalizer os chunk { w with finalizers := rest }).2

/-- The states of a handle returned by a successful `NewDatum(v, n)` after
any sequence of `Write` and `Delete` calls, whatever each call returns.  The
flag tells whether one of the `Delete` calls has succeeded. -/
inductive Reached (os : OS) (n : Nat) : Bool → Datum → World → Prop where
  | new (v : Iface) (w : World) (dt : Datum) (w1 : World) :
      n < 2 ^ 64 → NewDatum os v n w = (.ok (dt, none), w1) → Reached os n false dt w1
  | write (d : Bool) (dt : Datum) (w : World) (i : Int) (v : Iface) :
      Reached os n d dt w → Reached os n d (dt.Write i v w).2.1 (dt.Write i v w).2.2
  | deleteOk (d : Bool) (dt : Datum) (w : World) (dt1 : Datum) (w1 : World) :
      Reached os n d dt w → dt.Delete os w = ((dt1, none), w1) → Reached os n true dt1 w1
  | deleteFail (d : Bool) (dt : Datum) (w : World) (dt1 : Datum) (err : GoError) (w1 : World) :
      Reached os n d dt w → dt.Delete os w = ((dt1, some err), w1) → Reached os n d dt1 w1

/-- The messages of the errors of `typeValidate`, written out for the kinds
a leaf that is not flat can have: "invalid type: " and the name of the kind
in double quotes. -/
def offenderMessages : List (Kind × String) :=
  [(.Pointer, "invalid type: \"ptr\""),
   (.String, "invalid type: \"string\""),
   (.Slice, "invalid type: \"slice\""),
   (.Map, "invalid type: \"map\""),
   (.Chan, "invalid type: \"chan\""),
   (.Func, "invalid type: \"func\""),
   (.Interface, "invalid type: \"interface\"")]

/-! ## The type validator accepts exactly the flat types -/

mutual
theorem typeValidate_none_iff : (t : RType) →
    (typeValidate t = none ↔ ∀ k ∈ leafKinds t, k ∈ flatKinds)
  | .array _ elem => by
    simp only [typeValidate, leafKinds]
    exact typeValidate_none_iff elem
  | .struct fields => by
    simp only [typeValidate, leafKinds]
    exact typeValidateFields_none_iff fields
  | .named _ _ underlying => by
    simp only [typeValidate, leafKinds]
    exact typeValidate_none_iff underlying
  | .basic b => by
    cases b <;> simp [typeValidate, leafKinds, scalarKind, RType.Kind, Basic.Kind, flatKinds]
  | .chan _ => by simp [typeValidate, leafKinds, scalarKind, RType.Kind, flatKinds]
  | .func => by simp [typeValidate, leafKinds, scalarKind, RType.Kind, flatKinds]
  | .interface => by simp [typeValidate, leafKinds, scalarKind, RType.Kind, flatKinds]
  | .map _ _ => by simp [typeValidate, leafKinds, scalarKind, RType.Kind, flatKinds]
  | .ptr _ => by simp [typeValidate, leafKinds, scalarKind, RType.Kind, flatKinds]
  | .slice _ => by simp [typeValidate, leafKinds, scalarKind, RType.Kind, flatKinds]
theorem typeValidateFields_none_iff : (fs : Fields) →
    (typeValidateFields fs = none ↔ ∀ k ∈ leafKindsFields fs, k ∈ flatKinds)
  | .nil => by simp [typeValidateFields, leafKindsFields]
  | .cons _ t rest => by
    have h1 := typeValidate_none_iff t
    have h2 := typeValidateFields_none_iff rest
    simp only [typeValidateFields, leafKindsFields, List.mem_append]
    cases h : typeValidate t with
    | some err =>
      simp only [false_iff, reduceCtorEq]
      intro hall
      have : typeValidate t = none := h1.mpr (fun k hk => hall k (Or.inl hk))
      rw [h] at this
      cases this
    | none =>
      simp only
      rw [h2]
      constructor
      · intro hr k hk
        cases hk with
        | inl hk => exact (h1.mp h) k hk
        | inr hk => exact hr k hk
      · intro hall k hk
        exact hall k (Or.inr hk)
end

theorem typeValidateFields_none_types : (fs : Fields) →
    (typeValidateFields fs = none ↔ ∀ t ∈ fs.types, typeValidate t = none)
  | .nil => by simp [typeValidateFields, Fields.types]
  | .cons _ t rest => by
    have ih := typeValidateFields_none_types rest
    simp only [typeValidateFields, Fields.types, List.mem_cons, forall_eq_or_imp]
    cases h : typeValidate t <;> simp [ih]

/-- C1: `typeValidate` returns the nil error exactly for the types all of whose
leaves, reached through array element types and struct field types, have one
of the seventeen scalar kinds; a struct is accepted exactly when every field
type is accepted, an array exactly when its element type is, and a defined
type exactly when its underlying type is. -/
theorem typeValidate_accepts_exactly_flat (t : RType) :
    (typeValidate t = none ↔ ∀ k ∈ leafKinds t, k ∈ flatKinds) ∧
    (∀ fields, t = .struct fields →
      (typeValidate t = none ↔ ∀ f ∈ fields.types, typeValidate f = none)) ∧
    (∀ len elem, t = .array len elem →
      (typeValidate t = none ↔ typeValidate elem = none)) ∧
    (∀ pkgPath name underlying, t = .named pkgPath name underlying →
      (typeValidate t = none ↔ typeValidate underlying = none)) := by
  refine ⟨typeValidate_none_iff t, ?_, ?_, ?_⟩
  · intro fields ht
    subst ht
    simp only [typeValidate]
    exact typeValidateFields_none_types fields
  · intro len elem ht
    subst ht
    simp only [typeValidate]
  · intro pkgPath name underlying ht
    subst ht
    simp only [typeValidate]

/-! ## Memory lemmas -/

theorem Value.eq_of (x y : Value) (h1 : x.typ = y.typ) (h2 : x.bytes = y.bytes) : x = y := by
  cases x; cases y; simp only at h1 h2; subst h1; subst h2; rfl

theorem store_mem_in (w : World) (a : Nat) (bs : List Nat) (p : Nat)
    (h1 : a ≤ p) (h2 : p < a + bs.length) :
    (w.store a bs).mem p = bs.getD (p - a) 0 := by
  simp [World.store, h1, h2]

theorem store_mem_out (w : World) (a : Nat) (bs : List Nat) (p : Nat)
    (h : p < a ∨ a + bs.length ≤ p) :
    (w.store a bs).mem p = w.mem p := by
  simp only [World.store]
  rw [if_neg]
  omega

theorem load_eq_of_mem (w : World) (a size : Nat) (bs : List Nat)
    (hlen : bs.length = size) (h : ∀ t, t < size → w.mem (a + t) = bs.getD t 0) :
    w.load a size = bs := by
  apply List.ext_getElem
  · simp [World.load, hlen]
  · intro t h1 h2
    simp only [World.load, List.getElem_map, List.getElem_range]
    rw [h t (by simpa [World.load] using h1)]
    simp [List.getD, h2]

theorem load_congr (w1 w2 : World) (a size : Nat)
    (h : ∀ t, t < size → w1.mem (a + t) = w2.mem (a + t)) :
    w1.load a size = w2.load a size := by
  simp only [World.load]
  apply List.map_congr_left
  intro t ht
  exact h t (List.mem_range.mp ht)

theorem covered_iff (w : World) (a size : Nat) :
    w.covered a size = true ↔ ∀ t, t < size → w.mapped (a + t) = true := by
  simp [World.covered, List.all_eq_true]

theorem toWord_natCast (i : Nat) (h : i < 2 ^ 64) : toWord (i : Int) = i := by
  simp only [toWord]
  have : ((i : Int) % 2 ^ 64) = (i : Int) := Int.emod_eq_of_lt (by omega) (by omega)
  rw [this]
  simp

theorem toWord_of_range (i : Int) (h0 : 0 ≤ i) (h : i < 2 ^ 64) : toWord i = i.toNat := by
  simp only [toWord]
  rw [Int.emod_eq_of_lt h0 h]

theorem toInt_small (u : Nat) (h : u < 2 ^ 63) : toInt u = (u : Int) := by
  have h1 : u % 2 ^ 64 = u := Nat.mod_eq_of_lt (by omega)
  simp only [toInt, h1]
  rw [if_pos h]

theorem toInt_nonneg_lt (u : Nat) (hu : u < 2 ^ 64) (h : ¬ toInt u < 0) : u < 2 ^ 63 := by
  have h1 : u % 2 ^ 64 = u := Nat.mod_eq_of_lt hu
  simp only [toInt, h1] at h
  by_contra hc
  rw [if_neg hc] at h
  omega

/-! ## The initialisation loop -/

theorem fill_ok (s : SliceValue) (v : Value) (hv : v.typ = s.elem) (hlen : s.Len < 2 ^ 64) :
    ∀ (k i : Nat) (w w2 : World), i + k ≤ s.Len →
      fill s v i k w = (.ok (), w2) →
      w2.mapped = w.mapped ∧ w2.requests = w.requests ∧ w2.finalizers = w.finalizers ∧
      (∀ p, p < s.Data + i * s.elem.Size ∨ s.Data + (i + k) * s.elem.Size ≤ p →
        w2.mem p = w.mem p) ∧
      (∀ j, i ≤ j → j < i + k → ∀ t, t < s.elem.Size →
        w2.mem (s.Data + j * s.elem.Size + t) = v.bytes.getD t 0) := by
  have hb : v.bytes.length = s.elem.Size := by rw [v.wf, hv]
  intro k
  induction k with
  | zero =>
    intro i w w2 _ h
    simp only [fill, Prod.mk.injEq, true_and] at h
    subst h
    refine ⟨rfl, rfl, rfl, fun _ _ => rfl, ?_⟩
    intro j h1 h2
    omega
  | succ k ih =>
    intro i w w2 hik h
    have hi : toWord (i : Int) = i := toWord_natCast i (by omega)
    simp only [fill, SliceValue.Index, hi] at h
    rw [if_neg (by omega)] at h
    simp only at h
    split at h
    · obtain ⟨hm, hr, hf, hout, hin⟩ := ih (i + 1) _ w2 (by omega) h
      refine ⟨hm, hr, hf, ?_, ?_⟩
      · intro p hp
        have e1 : (i + 1) * s.elem.Size = i * s.elem.Size + s.elem.Size := by ring
        have e2 : (i + (k + 1)) * s.elem.Size = (i + 1) * s.elem.Size + k * s.elem.Size := by ring
        have e3 : (i + 1 + k) * s.elem.Size = (i + 1) * s.elem.Size + k * s.elem.Size := by ring
        rw [hout p (by omega)]
        exact store_mem_out w _ _ p (by omega)
      · intro j hj1 hj2 t ht
        by_cases hji : j = i
        · subst hji
          have e1 : (j + 1) * s.elem.Size = j * s.elem.Size + s.elem.Size := by ring
          rw [hout _ (by omega)]
          rw [store_mem_in w _ _ _ (by omega) (by omega)]
          congr 1
          omega
        · exact hin j (by omega) (by omega) t ht
    · simp at h

theorem fill_succeeds (s : SliceValue) (v : Value) (hlen : s.Len < 2 ^ 64) :
    ∀ (k i : Nat) (w : World), i + k ≤ s.Len →
      (∀ p, s.Data ≤ p → p < s.Data + s.Len * s.elem.Size → w.mapped p = true) →
      ∃ w2, fill s v i k w = (.ok (), w2) := by
  intro k
  induction k with
  | zero => intro i w _ _; exact ⟨w, rfl⟩
  | succ k ih =>
    intro i w hik hmap
    have hi : toWord (i : Int) = i := toWord_natCast i (by omega)
    simp only [fill, SliceValue.Index, hi]
    rw [if_neg (by omega)]
    simp only
    have hcov : w.covered (s.Data + i * s.elem.Size) s.elem.Size = true := by
      rw [covered_iff]
      intro t ht
      apply hmap
      · omega
      · have : (i + 1) * s.elem.Size ≤ s.Len * s.elem.Size :=
          Nat.mul_le_mul_right _ (by omega)
        have e1 : (i + 1) * s.elem.Size = i * s.elem.Size + s.elem.Size := by ring
        omega
    rw [if_pos hcov]
    exact ih (i + 1) _ (by omega) hmap

/-! ## What a successful `NewDatum` has done -/

theorem MakeSlice_ok (os : OS) (t : RType) (len : Int) (itf : SliceValue)
    (h : MakeSlice os t len = .ok itf) :
    ¬ len < 0 ∧ ¬ maxAlloc < t.Size * len.toNat ∧
      itf = { elem := t, Data := 0, Len := len.toNat } := by
  unfold MakeSlice at h
  split at h
  · simp at h
  · rename_i hneg
    split at h
    · split at h <;> simp at h
    · rename_i halloc
      split at h
      · simp at h
      · simp only [Except.ok.injEq] at h
        exact ⟨hneg, halloc, h.symm⟩

theorem NewDatum_ok (os : OS) (v : Iface) (n : Nat) (w : World) (dt : Datum) (w1 : World)
    (hn : n < 2 ^ 64) (h : NewDatum os v n w = (.ok (dt, none), w1)) :
    ∃ val base w2, v = some val ∧ typeValidate val.typ = none ∧ 0 < n ∧
      0 < val.typ.Size ∧ val.typ.Size * n ≤ maxAlloc ∧
      os.Mmap ((val.typ.Size * n : Nat) : Int) = .ok base ∧
      dt = { chunkSize := val.typ.Size * n, objSize := val.typ.Size,
             slice := some { elem := val.typ, Data := base, Len := n },
             bytes := some { Data := base, Len := val.typ.Size * n } } ∧
      fill { elem := val.typ, Data := base, Len := n } val 0 n
        (afterMmap w (val.typ.Size * n) base) = (.ok (), w2) ∧
      w1 = { w2 with finalizers := dt :: w2.finalizers } := by
  unfold NewDatum at h
  split at h
  · simp at h
  · rename_i hn0
    split at h
    · simp at h
    · rename_i htv
      split at h
      · simp at h
      · rename_i val
        simp only at h
        split at h
        · simp at h
        · rename_i bytes wm hmm
          split at h
          · simp at h
          · rename_i itf hms
            split at h
            · simp at h
            · rename_i hlen
              split at h
              · simp at h
              · rename_i u w2 hfill
                obtain ⟨hneg, halloc, hitf⟩ := MakeSlice_ok os val.typ (toInt n) itf hms
                have hn63 : n < 2 ^ 63 := toInt_nonneg_lt n hn hneg
                have hti : toInt n = (n : Int) := toInt_small n hn63
                rw [hti] at hitf halloc
                simp only [Int.toNat_ofNat] at hitf
                simp only [Int.toNat_ofNat, not_lt] at halloc
                have hma : maxAlloc = 2 ^ 48 := rfl
                have hmod : val.typ.Size * n % 2 ^ 64 = val.typ.Size * n :=
                  Nat.mod_eq_of_lt (by omega)
                have htl : toInt (val.typ.Size * n % 2 ^ 64) =
                    ((val.typ.Size * n : Nat) : Int) := by
                  rw [hmod]; exact toInt_small _ (by omega)
                rw [htl] at hmm
                simp only [Mmap] at hmm
                split at hmm
                · simp at hmm
                · rename_i base hos
                  simp only [Prod.mk.injEq, Except.ok.injEq] at hmm
                  obtain ⟨hb, hw⟩ := hmm
                  subst hb
                  simp only [Int.toNat_ofNat] at hlen hfill h
                  have hpos : 0 < val.typ.Size * n := Nat.pos_of_ne_zero hlen
                  have hsz : 0 < val.typ.Size := by
                    rcases Nat.eq_zero_or_pos val.typ.Size with h0 | h0
                    · rw [h0] at hpos; simp at hpos
                    · exact h0
                  subst hitf
                  simp only [TypeValidate] at htv
                  simp only [hmod, Prod.mk.injEq, Except.ok.injEq, and_true] at h
                  obtain ⟨hdt, hw1⟩ := h
                  refine ⟨val, base, w2, rfl, htv, Nat.pos_of_ne_zero hn0, hsz, halloc, hos,
                    hdt.symm, ?_, ?_⟩
                  · rw [← hfill, ← hw]
                    rfl
                  · rw [← hw1, hdt]

theorem NewDatum_live (os : OS) (v : Iface) (n : Nat) (w : World) (dt : Datum) (w1 : World)
    (hn : n < 2 ^ 64) (h : NewDatum os v n w = (.ok (dt, none), w1)) : Live dt w1 := by
  obtain ⟨val, base, w2, _, _, hn0, hsz, halloc, _, hdt, hfill, hw1⟩ :=
    NewDatum_ok os v n w dt w1 hn h
  have hma : maxAlloc = 2 ^ 48 := rfl
  obtain ⟨hm, _, _, _, _⟩ := fill_ok { elem := val.typ, Data := base, Len := n } val rfl
    (by simpa using hn) n 0 _ w2 (by simp) hfill
  refine ⟨{ elem := val.typ, Data := base, Len := n }, { Data := base, Len := val.typ.Size * n },
    by rw [hdt], by rw [hdt], by rw [hdt]; exact hsz, by rw [hdt], hn0, by rw [hdt],
    by rw [hdt]; exact halloc, rfl, by rw [hdt], ?_⟩
  intro p hp1 hp2
  rw [hw1]
  simp only [hdt] at hp2
  simp only [hm, afterMmap]
  simp only at hp1
  simp [hp1, hp2]

theorem Live.nbObjects {dt : Datum} {w : World} (h : Live dt w) :
    ∃ s, dt.slice = some s ∧ dt.NbObjects = .ok s.Len := by
  obtain ⟨s, b, hs, _, hpos, _, _, hchunk, _⟩ := h
  refine ⟨s, hs, ?_⟩
  simp only [Datum.NbObjects]
  rw [if_neg (by omega), hchunk, Nat.mul_div_cancel_left _ hpos]

theorem Live.len_lt {dt : Datum} {w : World} (h : Live dt w) (s : SliceValue)
    (hs : dt.slice = some s) : s.Len < 2 ^ 63 := by
  obtain ⟨s1, b, hs1, _, hpos, _, _, hchunk, hmax, _⟩ := h
  rw [hs] at hs1
  cases hs1
  have hma : maxAlloc = 2 ^ 48 := rfl
  have : s.Len ≤ dt.objSize * s.Len := Nat.le_mul_of_pos_left _ hpos
  omega

theorem Live.index {dt : Datum} {w : World} (h : Live dt w) (s : SliceValue)
    (hs : dt.slice = some s) (i : Int) (h0 : 0 ≤ i) (h1 : i < s.Len) :
    s.Index i = .ok (s.Data + i.toNat * s.elem.Size) ∧
    w.covered (s.Data + i.toNat * s.elem.Size) s.elem.Size = true := by
  have hl := h.len_lt s hs
  obtain ⟨s1, b, hs1, _, hpos, hobj, _, hchunk, hmax, _, _, hmap⟩ := h
  rw [hs] at hs1
  cases hs1
  have hw : toWord i = i.toNat := toWord_of_range i h0 (by omega)
  have hlt : i.toNat < s.Len := by omega
  constructor
  · simp only [SliceValue.Index, hw]
    rw [if_neg (by omega)]
  · rw [covered_iff]
    intro t ht
    apply hmap
    · omega
    · rw [hchunk, hobj]
      have : (i.toNat + 1) * s.elem.Size ≤ s.Len * s.elem.Size :=
        Nat.mul_le_mul_right _ (by omega)
      have e1 : (i.toNat + 1) * s.elem.Size = i.toNat * s.elem.Size + s.elem.Size := by ring
      have e2 : s.elem.Size * s.Len = s.Len * s.elem.Size := Nat.mul_comm _ _
      omega

theorem Live.store {dt : Datum} {w : World} (h : Live dt w) (a : Nat) (bs : List Nat) :
    Live dt (w.store a bs) := h

theorem Live.write_ok {dt : Datum} {w : World} (h : Live dt w) (s : SliceValue)
    (hs : dt.slice = some s) (i : Int) (h0 : 0 ≤ i) (h1 : i < s.Len) (x : Value)
    (hx : x.typ = s.elem) :
    dt.Write i (some x) w =
      (.ok (some x), dt, w.store (s.Data + i.toNat * s.elem.Size) x.bytes) := by
  obtain ⟨hidx, hcov⟩ := h.index s hs i h0 h1
  simp only [Datum.Write, hs, hx, ne_eq, not_true_eq_false, if_false, hidx, hcov, if_true]

theorem Live.read_eq {dt : Datum} {w : World} (h : Live dt w) (s : SliceValue)
    (hs : dt.slice = some s) (i : Int) (h0 : 0 ≤ i) (h1 : i < s.Len) (x : Value)
    (hx : x.typ = s.elem)
    (hmem : w.load (s.Data + i.toNat * s.elem.Size) s.elem.Size = x.bytes) :
    dt.Read w i = .ok x := by
  obtain ⟨hidx, hcov⟩ := h.index s hs i h0 h1
  simp only [Datum.Read, hs, hidx, hcov, if_true, Except.ok.injEq]
  exact Value.eq_of _ _ hx.symm hmem

theorem Write_ok_inv (dt : Datum) (i : Int) (v r : Iface) (w : World) (dt1 : Datum) (w1 : World)
    (h : dt.Write i v w = (.ok r, dt1, w1)) :
    dt1 = dt ∧ r = v ∧ ∃ a bs, w1 = w.store a bs := by
  unfold Datum.Write at h
  split at h
  · simp at h
  · split at h
    · simp at h
    · split at h
      · simp at h
      · split at h
        · simp at h
        · split at h
          · simp only [Prod.mk.injEq, Except.ok.injEq] at h
            exact ⟨h.2.1.symm, h.1.symm, _, _, h.2.2.symm⟩
          · simp at h

theorem Allocated.live {os : OS} {dt : Datum} {w : World} (h : Allocated os dt w) : Live dt w := by
  induction h with
  | new v n w dt w1 hn hnew => exact NewDatum_live os v n w dt w1 hn hnew
  | write dt w i v r dt1 w1 _ hw ih =>
    obtain ⟨hdt, _, a, bs, hw1⟩ := Write_ok_inv dt i v r w dt1 w1 hw
    rw [hdt, hw1]
    exact ih.store a bs


theorem pointDatum_new :
    NewDatum (linux 4096) (some point00) 4 World.init = (.ok (pointDatum, none), pointWorld) :=
  Prod.ext (by decide) rfl

theorem pointDatum_allocated : Allocated (linux 4096) pointDatum pointWorld :=
  Allocated.new (some point00) 4 World.init pointDatum pointWorld (by decide) pointDatum_new

/-! ## Round trip, frame and type check of `Write` -/

/-- C2: on an allocated Datum, for a valid index and a value of the element
type, `Write(i, x)` returns `x` and the following `Read(i)` returns `x`. -/
theorem write_read_round_trip (os : OS) (dt : Datum) (w : World) (hA : Allocated os dt w)
    (N : Nat) (hN : dt.NbObjects = .ok N) (i : Int) (h0 : 0 ≤ i) (h1 : i < N)
    (x : Value) (hx : dt.elemType = some x.typ) :
    (dt.Write i (some x) w).1 = .ok (some x) ∧
    (dt.Write i (some x) w).2.1.Read (dt.Write i (some x) w).2.2 i = .ok x := by
  have hL := hA.live
  obtain ⟨s, hs, hnb⟩ := hL.nbObjects
  rw [hnb] at hN
  cases hN
  have hxs : x.typ = s.elem := by
    simp only [Datum.elemType, hs, Option.map_some', Option.some.injEq] at hx
    exact hx.symm
  rw [hL.write_ok s hs i h0 h1 x hxs]
  refine ⟨rfl, ?_⟩
  apply (hL.store _ _).read_eq s hs i h0 h1 x hxs
  have hb : x.bytes.length = s.elem.Size := by rw [x.wf, hxs]
  apply load_eq_of_mem _ _ _ _ hb
  intro t ht
  rw [store_mem_in _ _ _ _ (by omega) (by omega)]
  congr 1
  omega

theorem write_read_round_trip_witness :
    (pointDatum.Write 2 (some point57) pointWorld).1 = .ok (some point57) ∧
    (pointDatum.Write 2 (some point57) pointWorld).2.1.Read
      (pointDatum.Write 2 (some point57) pointWorld).2.2 2 = .ok point57 :=
  write_read_round_trip (linux 4096) pointDatum pointWorld pointDatum_allocated 4 (by decide)
    2 (by decide) (by decide) point57 (by decide)

theorem Live.read_store_other {dt : Datum} {w : World} (h : Live dt w) (s : SliceValue)
    (hs : dt.slice = some s) (i j : Int) (hi0 : 0 ≤ i) (hj0 : 0 ≤ j) (hj1 : j < s.Len)
    (hij : j ≠ i) (bs : List Nat) (hb : bs.length = s.elem.Size) :
    dt.Read (w.store (s.Data + i.toNat * s.elem.Size) bs) j = dt.Read w j := by
  obtain ⟨hidx, hcov⟩ := h.index s hs j hj0 hj1
  have hcov2 := ((h.store (s.Data + i.toNat * s.elem.Size) bs).index s hs j hj0 hj1).2
  simp only [Datum.Read, hs, hidx, hcov, hcov2, if_true, Except.ok.injEq]
  refine Value.eq_of _ _ (by rfl) ?_
  apply load_congr
  intro t ht
  apply store_mem_out
  rw [hb]
  have hne : j.toNat ≠ i.toNat := by omega
  rcases Nat.lt_or_gt_of_ne hne with hlt | hgt
  · left
    have : (j.toNat + 1) * s.elem.Size ≤ i.toNat * s.elem.Size :=
      Nat.mul_le_mul_right _ (by omega)
    have e1 : (j.toNat + 1) * s.elem.Size = j.toNat * s.elem.Size + s.elem.Size := by ring
    omega
  · right
    have : (i.toNat + 1) * s.elem.Size ≤ j.toNat * s.elem.Size :=
      Nat.mul_le_mul_right _ (by omega)
    have e1 : (i.toNat + 1) * s.elem.Size = i.toNat * s.elem.Size + s.elem.Size := by ring
    omega

/-- C8: on an allocated Datum, a successful `Write(i, x)` leaves `Read(j)`
unchanged for every valid `j ≠ i`, and leaves `chunkSize`, `objSize` and
`NbObjects()` unchanged. -/
theorem write_frame (os : OS) (dt : Datum) (w : World) (hA : Allocated os dt w)
    (N : Nat) (hN : dt.NbObjects = .ok N) (i : Int) (h0 : 0 ≤ i) (h1 : i < N)
    (x : Value) (hx : dt.elemType = some x.typ) :
    (dt.Write i (some x) w).1 = .ok (some x) ∧
    (dt.Write i (some x) w).2.1.chunkSize = dt.chunkSize ∧
    (dt.Write i (some x) w).2.1.objSize = dt.objSize ∧
    (dt.Write i (some x) w).2.1.NbObjects = .ok N ∧
    ∀ j : Int, 0 ≤ j → j < N → j ≠ i →
      (dt.Write i (some x) w).2.1.Read (dt.Write i (some x) w).2.2 j = dt.Read w j := by
  have hL := hA.live
  obtain ⟨s, hs, hnb⟩ := hL.nbObjects
  have hN2 := hN
  rw [hnb] at hN2
  cases hN2
  have hxs : x.typ = s.elem := by
    simp only [Datum.elemType, hs, Option.map_some', Option.some.injEq] at hx
    exact hx.symm
  rw [hL.write_ok s hs i h0 h1 x hxs]
  refine ⟨rfl, rfl, rfl, hN, ?_⟩
  intro j hj0 hj1 hji
  exact hL.read_store_other s hs i j h0 hj0 hj1 hji x.bytes (by rw [x.wf, hxs])

theorem write_frame_witness :
    (pointDatum.Write 2 (some point57) pointWorld).1 = .ok (some point57) ∧
    (pointDatum.Write 2 (some point57) pointWorld).2.1.chunkSize = pointDatum.chunkSize ∧
    (pointDatum.Write 2 (some point57) pointWorld).2.1.objSize = pointDatum.objSize ∧
    (pointDatum.Write 2 (some point57) pointWorld).2.1.NbObjects = .ok 4 ∧
    ∀ j : Int, 0 ≤ j → j < (4 : Nat) → j ≠ 2 →
      (pointDatum.Write 2 (some point57) pointWorld).2.1.Read
        (pointDatum.Write 2 (some point57) pointWorld).2.2 j = pointDatum.Read pointWorld j :=
  write_frame (linux 4096) pointDatum pointWorld pointDatum_allocated 4 (by decide)
    2 (by decide) (by decide) point57 (by decide)

/-- C7: on an allocated Datum, `Write(i, x)` with a value whose type differs
from the element type, be it another defined type of the same layout, panics
with "illegal value" for every index, valid or not, and changes neither the
handle nor the memory: every slot reads as before. -/
theorem write_wrong_type_fails (os : OS) (dt : Datum) (w : World) (hA : Allocated os dt w)
    (i : Int) (x : Value) (hx : dt.elemType ≠ some x.typ) :
    dt.Write i (some x) w = (.error (.panic "illegal value"), dt, w) ∧
    ∀ j : Int, (dt.Write i (some x) w).2.1.Read (dt.Write i (some x) w).2.2 j = dt.Read w j := by
  obtain ⟨s, hs, _⟩ := hA.live.nbObjects
  have hxs : x.typ ≠ s.elem := by
    intro he
    apply hx
    simp [Datum.elemType, hs, he]
  have hw : dt.Write i (some x) w = (.error (.panic "illegal value"), dt, w) := by
    simp only [Datum.Write, hs, ne_eq, hxs, not_false_eq_true, if_true]
  refine ⟨hw, ?_⟩
  intro j
  rw [hw]

theorem write_wrong_type_fails_witness :
    (pointDatum.elemType = some Point ∧ other57.typ = Other ∧ Other ≠ Point ∧
      other57.bytes = point57.bytes) ∧
    pointDatum.Write 2 (some other57) pointWorld =
      (.error (.panic "illegal value"), pointDatum, pointWorld) ∧
    (∀ j : Int, (pointDatum.Write 2 (some other57) pointWorld).2.1.Read
      (pointDatum.Write 2 (some other57) pointWorld).2.2 j = pointDatum.Read pointWorld j) ∧
    pointDatum.Write 9 (some int32Seven) pointWorld =
      (.error (.panic "illegal value"), pointDatum, pointWorld) :=
  ⟨⟨by decide, by decide, by decide, by decide⟩,
    (write_wrong_type_fails (linux 4096) pointDatum pointWorld pointDatum_allocated 2 other57
      (by decide)).1,
    (write_wrong_type_fails (linux 4096) pointDatum pointWorld pointDatum_allocated 2 other57
      (by decide)).2,
    (write_wrong_type_fails (linux 4096) pointDatum pointWorld pointDatum_allocated 9
      int32Seven (by decide)).1⟩

/-! ## Allocation -/

/-- C4: when `NewDatum(prototype, n)` returns without error, for a count `n`
of type `uint`, the prototype is a value and `Read(i)` on the returned Datum
gives that value for every `0 ≤ i < n`: no slot is left uninitialised. -/
theorem NewDatum_initialises_every_slot (os : OS) (v : Iface) (n : Nat) (w : World)
    (dt : Datum) (w1 : World) (hn : n < 2 ^ 64)
    (h : NewDatum os v n w = (.ok (dt, none), w1)) (i : Int) (h0 : 0 ≤ i) (h1 : i < n) :
    ∃ val, v = some val ∧ dt.Read w1 i = .ok val := by
  have hL := NewDatum_live os v n w dt w1 hn h
  obtain ⟨val, base, w2, hv, _, _, _, _, _, hdt, hfill, hw1⟩ := NewDatum_ok os v n w dt w1 hn h
  obtain ⟨_, _, _, _, hin⟩ := fill_ok { elem := val.typ, Data := base, Len := n } val rfl
    (by simpa using hn) n 0 _ w2 (by simp) hfill
  refine ⟨val, hv, ?_⟩
  have hs : dt.slice = some { elem := val.typ, Data := base, Len := n } := by rw [hdt]
  apply hL.read_eq _ hs i h0 h1 val rfl
  apply load_eq_of_mem _ _ _ _ val.wf
  intro t ht
  rw [hw1]
  exact hin i.toNat (by omega) (by omega) t ht

theorem NewDatum_initialises_every_slot_witness :
    (∃ val, some point57 = some val ∧ pointDatum.Read filledWorld 3 = .ok val) ∧
    pointDatum.Read filledWorld 3 = .ok point57 ∧
    pointDatum.Read (afterMmap World.init 32 4096) 3 = .ok point00 ∧
    point00 ≠ point57 :=
  ⟨NewDatum_initialises_every_slot (linux 4096) (some point57) 4 World.init pointDatum
      filledWorld (by decide) (Prod.ext (by decide) rfl) 3 (by decide) (by decide),
    by decide, by decide, by decide⟩


/-- C3 (as amended): for a prototype of a flat type of non-zero size and a
count `n > 0` with `size × n` within the allocation limit of the runtime (so
that `size*n` does not wrap), when the operating system grants the mapping
of `size × n` bytes and the Go heap supplies the `size × n` bytes of the
slice that `reflect.MakeSlice` allocates, `NewDatum` returns a nil error and
a Datum with `NbObjects() == n`. -/
theorem NewDatum_succeeds (os : OS) (val : Value) (n : Nat) (w : World) (base : Nat)
    (hflat : ∀ k ∈ leafKinds val.typ, k ∈ flatKinds) (hsz : 0 < val.typ.Size) (hn : 0 < n)
    (hbound : val.typ.Size * n ≤ maxAlloc)
    (hos : os.Mmap ((val.typ.Size * n : Nat) : Int) = .ok base)
    (hheap : os.HeapAlloc (val.typ.Size * n) = true) :
    ∃ dt w1, NewDatum os (some val) n w = (.ok (dt, none), w1) ∧ dt.NbObjects = .ok n := by
  have hma : maxAlloc = 2 ^ 48 := rfl
  have htv : TypeValidate (some val) = none := (typeValidate_none_iff val.typ).mpr hflat
  have hnle : n ≤ val.typ.Size * n := Nat.le_mul_of_pos_left _ hsz
  have hmod : val.typ.Size * n % 2 ^ 64 = val.typ.Size * n := Nat.mod_eq_of_lt (by omega)
  have htl : toInt (val.typ.Size * n) = ((val.typ.Size * n : Nat) : Int) :=
    toInt_small _ (by omega)
  have htn : toInt n = (n : Int) := toInt_small _ (by omega)
  have hpos : 0 < val.typ.Size * n := Nat.mul_pos hsz hn
  have hmm : Mmap os ((val.typ.Size * n : Nat) : Int) w =
      (.ok { Data := base, Len := val.typ.Size * n }, afterMmap w (val.typ.Size * n) base) := by
    simp only [Mmap, hos, Int.toNat_ofNat]
    rfl
  have hms : MakeSlice os val.typ (n : Int) = .ok { elem := val.typ, Data := 0, Len := n } := by
    simp only [MakeSlice, Int.toNat_ofNat]
    rw [if_neg (by omega), if_neg (by omega), if_neg (by simp [hheap])]
  obtain ⟨w2, hfill⟩ := fill_succeeds { elem := val.typ, Data := base, Len := n } val
    (by simp only; omega) n 0 (afterMmap w (val.typ.Size * n) base) (by simp) (by
      intro p hp1 hp2
      simp only at hp1 hp2
      simp only [afterMmap]
      have : n * val.typ.Size = val.typ.Size * n := Nat.mul_comm _ _
      simp [hp1]
      left
      omega)
  refine ⟨{ chunkSize := val.typ.Size * n, objSize := val.typ.Size,
             slice := some { elem := val.typ, Data := base, Len := n },
             bytes := some { Data := base, Len := val.typ.Size * n } },
    { w2 with finalizers :=
        { chunkSize := val.typ.Size * n, objSize := val.typ.Size,
          slice := some { elem := val.typ, Data := base, Len := n },
          bytes := some { Data := base, Len := val.typ.Size * n } } :: w2.finalizers }, ?_, ?_⟩
  · unfold NewDatum
    rw [if_neg (by omega)]
    simp only [htv, hmod, htl, hmm, htn, hms]
    rw [if_neg (by omega)]
    simp only [hfill]
  · simp only [Datum.NbObjects]
    rw [if_neg (by omega), Nat.mul_div_cancel_left _ hsz]

theorem NewDatum_succeeds_witness :
    ∃ dt w1, NewDatum (linux 4096) (some point00) 4 World.init = (.ok (dt, none), w1) ∧
      dt.NbObjects = .ok 4 :=
  NewDatum_succeeds (linux 4096) point00 4 World.init 4096 (by decide) (by decide) (by decide)
    (by decide) (by decide) (by decide)

/-- C3 (as stated) fails: a flat prototype of size zero, a count whose byte
length wraps the machine word, a refusal of the operating system, and a Go
heap that cannot supply the slice of `reflect.MakeSlice` once the mapping is
granted each keep `NewDatum` from returning a Datum, for counts `n > 0`. -/
theorem NewDatum_flat_may_fail :
    ((∀ k ∈ leafKinds emptyStruct.typ, k ∈ flatKinds) ∧ emptyStruct.typ.Size = 0 ∧
      (NewDatum (linux 4096) (some emptyStruct) 1 World.init).1 =
        .ok (Datum.zero, some (.Errno EINVAL)) ∧
      ¬ ∃ os w dt w1, NewDatum os (some emptyStruct) 1 w = (.ok (dt, none), w1)) ∧
    ((∀ k ∈ leafKinds int64Zero.typ, k ∈ flatKinds) ∧
      (int64Zero.typ.Size * (2 ^ 61 + 1)) % 2 ^ 64 = 8 ∧
      (NewDatum (linux 4096) (some int64Zero) (2 ^ 61 + 1) World.init).1 =
        .error (.panic "runtime: allocation size out of range")) ∧
    ((∀ k ∈ leafKinds point00.typ, k ∈ flatKinds) ∧
      (NewDatum exhausted (some point00) 4 World.init).1 =
        .ok (Datum.zero, some (.Errno ENOMEM))) ∧
    (0 < point00.typ.Size ∧ point00.typ.Size * 4 ≤ maxAlloc ∧
      (heapFull 4096).Mmap ((point00.typ.Size * 4 : Nat) : Int) = .ok 4096 ∧
      (NewDatum (heapFull 4096) (some point00) 4 World.init).1 =
        .error (.fatal "runtime: out of memory") ∧
      (NewDatum (heapFull 4096) (some point00) 4 World.init).2.requests = [.mmap 32]) := by
  refine ⟨⟨by decide, by decide, by decide, ?_⟩, ⟨by decide, by decide, by decide⟩,
    ⟨by decide, by decide⟩, ⟨by decide, by decide, by decide, by decide, by decide⟩⟩
  rintro ⟨os, w, dt, w1, h⟩
  have hz : emptyStruct.typ.Size = 0 := by decide
  have htv : TypeValidate (some emptyStruct) = none := by decide
  have h1 : toInt 1 = 1 := by decide
  have h0 : toInt 0 = 0 := by decide
  unfold NewDatum at h
  rw [if_neg (by decide)] at h
  simp only [htv, hz, Nat.zero_mul, Nat.zero_mod, h0, h1, Mmap, MakeSlice] at h
  cases hos : os.Mmap 0 with
  | error e => simp [hos] at h
  | ok base => simp [hos, maxAlloc] at h


/-- C5: `NewDatum(v, 0)` returns the zero Datum and the invalid-count error for
every prototype, flat or not, nil included; the count is checked before the
type, the world is untouched and no mapping request is issued. -/
theorem NewDatum_zero_count (os : OS) (v : Iface) (w : World) :
    NewDatum os v 0 w = (.ok (Datum.zero, some (.Error "`n` must be > 0")), w) ∧
    (NewDatum os v 0 w).2.requests = w.requests := by
  constructor <;> simp [NewDatum]

theorem nonFlat_not_flat (k : Kind) (h : k ∈ nonFlatKinds) : k ∉ flatKinds := by
  revert k
  decide

/-- C6: for `n > 0` and a prototype whose type has, at any depth through
structs and arrays, a pointer, string, slice, map, channel, function or
interface member, `NewDatum` returns the zero Datum and exactly the error
`TypeValidate` returns on the prototype, and leaves the world untouched: no
mapping request is issued. -/
theorem NewDatum_rejects_non_flat (os : OS) (val : Value) (n : Nat) (w : World) (hn : 0 < n)
    (hk : ∃ k ∈ leafKinds val.typ, k ∈ nonFlatKinds) :
    ∃ err, TypeValidate (some val) = some err ∧
      NewDatum os (some val) n w = (.ok (Datum.zero, some err), w) ∧
      (NewDatum os (some val) n w).2.requests = w.requests := by
  obtain ⟨k, hk1, hk2⟩ := hk
  have hne : typeValidate val.typ ≠ none := by
    intro h
    exact nonFlat_not_flat k hk2 ((typeValidate_none_iff val.typ).mp h k hk1)
  cases htv : typeValidate val.typ with
  | none => exact absurd htv hne
  | some err =>
    have h1 : TypeValidate (some val) = some err := htv
    have h2 : NewDatum os (some val) n w = (.ok (Datum.zero, some err), w) := by
      unfold NewDatum
      rw [if_neg (by omega)]
      simp only [h1]
    exact ⟨err, h1, h2, by rw [h2]⟩

theorem NewDatum_rejects_non_flat_witness :
    ∃ err, TypeValidate (some nestedString) = some err ∧
      NewDatum (linux 4096) (some nestedString) 3 World.init = (.ok (Datum.zero, some err), World.init) ∧
      (NewDatum (linux 4096) (some nestedString) 3 World.init).2.requests = World.init.requests :=
  NewDatum_rejects_non_flat (linux 4096) nestedString 3 World.init (by decide)
    ⟨Kind.String, by decide, by decide⟩

/-! ## Release -/

theorem Delete_of_deleted (os : OS) (dt : Datum) (w : World)
    (h0 : dt.chunkSize = 0) (h1 : dt.objSize = 1) (hb : dt.bytes = none) :
    (dt.Delete os w).1 = (dt, (os.Munmap none).map GoError.Errno) := by
  cases dt with
  | mk c o s b =>
    simp only at h0 h1 hb
    subst h0 h1 hb
    simp only [Datum.Delete, Munmap]
    cases os.Munmap none <;> rfl

theorem Delete_ok_fields (os : OS) (dt : Datum) (w : World) (dt1 : Datum) (w1 : World)
    (h : dt.Delete os w = ((dt1, none), w1)) :
    dt1 = { dt with chunkSize := 0, objSize := 1, bytes := none } ∧
    os.Munmap dt.bytes = none := by
  simp only [Datum.Delete, Munmap] at h
  cases hos : os.Munmap dt.bytes with
  | some e => simp [hos] at h
  | none =>
    rw [hos] at h
    cases hb : dt.bytes with
    | none =>
      simp only [hb, Prod.mk.injEq, and_true] at h
      exact ⟨h.1.symm, rfl⟩
    | some b =>
      simp only [hb, Prod.mk.injEq, and_true] at h
      exact ⟨h.1.symm, rfl⟩

/-- C9 (as amended): once a first `Delete()` has succeeded, the handle has
`chunkSize = 0`, `objSize = 1` and empty `bytes`, and every later `Delete()`
leaves the handle unchanged and returns what the unmap call answers for the
empty buffer: the nil error exactly when that call reports success. -/
theorem Delete_again (os : OS) (dt : Datum) (w : World) (dt1 : Datum) (w1 : World)
    (h : dt.Delete os w = ((dt1, none), w1)) :
    dt1.chunkSize = 0 ∧ dt1.objSize = 1 ∧ dt1.bytes = none ∧
    ∀ k, (deletes os k dt1 w1).1 = dt1 ∧
      ((deletes os k dt1 w1).1.Delete os (deletes os k dt1 w1).2).1 =
        (dt1, (os.Munmap none).map GoError.Errno) := by
  obtain ⟨hdt, _⟩ := Delete_ok_fields os dt w dt1 w1 h
  have h0 : dt1.chunkSize = 0 := by rw [hdt]
  have h1 : dt1.objSize = 1 := by rw [hdt]
  have hb : dt1.bytes = none := by rw [hdt]
  refine ⟨h0, h1, hb, ?_⟩
  have key : ∀ k w2, (deletes os k dt1 w2).1 = dt1 := by
    intro k
    induction k with
    | zero => intro w2; rfl
    | succ k ih =>
      intro w2
      simp only [deletes, Delete_of_deleted os dt1 w2 h0 h1 hb]
      exact ih _
  intro k
  refine ⟨key k w1, ?_⟩
  rw [key k w1]
  exact Delete_of_deleted os dt1 _ h0 h1 hb

theorem Delete_again_witness :
    deletedPoint.chunkSize = 0 ∧ deletedPoint.objSize = 1 ∧ deletedPoint.bytes = none ∧
    ∀ k, (deletes (linux 4096) k deletedPoint deletedWorld).1 = deletedPoint ∧
      ((deletes (linux 4096) k deletedPoint deletedWorld).1.Delete (linux 4096)
        (deletes (linux 4096) k deletedPoint deletedWorld).2).1 =
        (deletedPoint, ((linux 4096).Munmap none).map GoError.Errno) :=
  Delete_again (linux 4096) pointDatum pointWorld deletedPoint deletedWorld
    (Prod.ext (by decide) rfl)

/-- C9 (as stated) fails: on the Datum of `NewDatum(Point{0, 0}, 4)` the first
`Delete()` succeeds and the second one returns `EINVAL`, the answer of
`syscall.Munmap` to an empty slice. -/
theorem second_Delete_returns_EINVAL :
    (NewDatum (linux 4096) (some point00) 4 World.init).1 = .ok (pointDatum, none) ∧
    (pointDatum.Delete (linux 4096) pointWorld).1 = (deletedPoint, none) ∧
    (deletedPoint.Delete (linux 4096) deletedWorld).1 =
      (deletedPoint, some (.Errno EINVAL)) := by
  refine ⟨by decide, by decide, by decide⟩

theorem Delete_ok_unmaps (os : OS) (dt : Datum) (w : World) (dt1 : Datum) (w1 : World)
    (h : dt.Delete os w = ((dt1, none), w1)) (p : Nat) (hp : dt.owns p = true) :
    w1.mapped p = false := by
  simp only [Datum.Delete, Munmap] at h
  cases hos : os.Munmap dt.bytes with
  | some e => simp [hos] at h
  | none =>
    rw [hos] at h
    cases hb : dt.bytes with
    | none => simp [Datum.owns, hb] at hp
    | some b =>
      simp only [hb, Prod.mk.injEq] at h
      rw [← h.2]
      simp only [Datum.owns, hb] at hp
      simp only [hp, Bool.not_true, Bool.false_and]

/-- C10 (as amended): after a successful `Delete()` on an allocated Datum the
released addresses are unmapped, `Pointer(i)` fails with index out of range
for every `i`, and as long as none of the released addresses is mapped again
every `Read(i)` and `Write(i, v)` ends in a fault (index out of range, illegal
value or an access to unmapped memory) and changes nothing. -/
theorem use_after_Delete_faults (os : OS) (dt : Datum) (w : World) (hA : Allocated os dt w)
    (dt1 : Datum) (w1 : World) (h : dt.Delete os w = ((dt1, none), w1)) :
    (∀ p, dt.owns p = true → w1.mapped p = false) ∧
    (∀ i : Int, ∃ idx, dt1.Pointer i = .error (.indexOutOfRange idx 0)) ∧
    ∀ w2 : World, (∀ p, dt.owns p = true → w2.mapped p = false) →
      ∀ i : Int, (∃ f, dt1.Read w2 i = .error f) ∧
        ∀ v : Iface, ∃ f, dt1.Write i v w2 = (.error f, dt1, w2) := by
  obtain ⟨hdt, _⟩ := Delete_ok_fields os dt w dt1 w1 h
  obtain ⟨s, b, hs, hbs, hpos, hobj, hlen, hchunk, _, hdata, hblen, _⟩ := hA.live
  have hs1 : dt1.slice = some s := by rw [hdt]; exact hs
  have hb1 : dt1.bytes = none := by rw [hdt]
  refine ⟨fun p hp => Delete_ok_unmaps os dt w dt1 w1 h p hp, ?_, ?_⟩
  · intro i
    exact ⟨(toWord i * dt1.objSize) % 2 ^ 64, by simp only [Datum.Pointer, hb1]⟩
  · intro w2 hun i
    have hnc : ∀ a, s.Index i = .ok a → w2.covered a s.elem.Size = false := by
      intro a ha
      simp only [SliceValue.Index] at ha
      split at ha
      · simp at ha
      · rename_i hlt
        simp only [Except.ok.injEq] at ha
        have hown : dt.owns a = true := by
          simp only [Datum.owns, hbs, decide_eq_true_eq, hdata, hblen, hchunk, hobj]
          have : (toWord i + 1) * s.elem.Size ≤ s.Len * s.elem.Size :=
            Nat.mul_le_mul_right _ (by omega)
          have e1 : (toWord i + 1) * s.elem.Size = toWord i * s.elem.Size + s.elem.Size := by
            ring
          have e2 : s.elem.Size * s.Len = s.Len * s.elem.Size := Nat.mul_comm _ _
          omega
        have hm := hun a hown
        cases hc : w2.covered a s.elem.Size with
        | false => rfl
        | true =>
          rw [covered_iff] at hc
          have := hc 0 (by omega)
          simp only [Nat.add_zero] at this
          rw [hm] at this
          cases this
    constructor
    · simp only [Datum.Read, hs1]
      cases hi : s.Index i with
      | error f => exact ⟨f, rfl⟩
      | ok a => exact ⟨.segv, by simp only [hnc a hi]; rfl⟩
    · intro v
      cases v with
      | none => exact ⟨_, rfl⟩
      | some val =>
        simp only [Datum.Write, hs1]
        by_cases ht : val.typ = s.elem
        · simp only [ht, ne_eq, not_true_eq_false, if_false]
          cases hi : s.Index i with
          | error f => exact ⟨f, rfl⟩
          | ok a => exact ⟨.segv, by simp only [hnc a hi]; rfl⟩
        · exact ⟨.panic "illegal value", by simp only [ne_eq, ht, not_false_eq_true, if_true]⟩

theorem use_after_Delete_faults_witness :
    (∀ p, pointDatum.owns p = true → deletedWorld.mapped p = false) ∧
    (∀ i : Int, ∃ idx, deletedPoint.Pointer i = .error (.indexOutOfRange idx 0)) ∧
    ∀ w2 : World, (∀ p, pointDatum.owns p = true → w2.mapped p = false) →
      ∀ i : Int, (∃ f, deletedPoint.Read w2 i = .error f) ∧
        ∀ v : Iface, ∃ f, deletedPoint.Write i v w2 = (.error f, deletedPoint, w2) :=
  use_after_Delete_faults (linux 4096) pointDatum pointWorld pointDatum_allocated
    deletedPoint deletedWorld (Prod.ext (by decide) rfl)

/-- C10 (as stated) fails: after `Delete()` on the Datum of
`NewDatum(Point{0, 0}, 4)`, a second `NewDatum(Point{5, 7}, 4)` is mapped at
the released address; on the deleted handle `Read(2)` then returns
`Point{5, 7}` through the view it kept, and `Write(2, Point{0, 0})` succeeds. -/
theorem Read_after_Delete_returns_a_value :
    (pointDatum.Delete (linux 4096) pointWorld).1 = (deletedPoint, none) ∧
    (NewDatum (linux 4096) (some point57) 4 deletedWorld).1 = .ok (pointDatum, none) ∧
    deletedPoint.Read reusedWorld 2 = .ok point57 ∧
    (deletedPoint.Write 2 (some point00) reusedWorld).1 = .ok (some point00) := by
  refine ⟨by decide, by decide, by decide, by decide⟩

theorem Delete_error (os : OS) (dt : Datum) (w : World) (e : Nat)
    (he : os.Munmap dt.bytes = some e) :
    dt.Delete os w =
      ((dt, some (.Errno e)), { w with requests := w.requests ++ [.munmap dt.bytes] }) := by
  simp only [Datum.Delete, Munmap, he]

theorem Delete_success (os : OS) (dt : Datum) (w : World) (he : os.Munmap dt.bytes = none) :
    (dt.Delete os w).1 = ({ dt with chunkSize := 0, objSize := 1, bytes := none }, none) := by
  simp only [Datum.Delete, Munmap, he]
  cases dt.bytes <;> rfl

theorem stuckDatum_allocated : Allocated (noUnmap 4096) pointDatum stuckWorld :=
  Allocated.new (some point00) 4 World.init pointDatum stuckWorld (by decide)
    (Prod.ext (by decide) rfl)

/-- C11 (as amended): `Delete()` on an allocated Datum whose unmap request
fails returns that error and leaves the Datum as it was, still allocated:
`chunkSize`, `objSize`, the view and `bytes` are unchanged, the chunk is
still mapped and `NbObjects()` returns the same count as before. -/
theorem Delete_failure_keeps_state (os : OS) (dt : Datum) (w : World)
    (hA : Allocated os dt w) (e : Nat) (he : os.Munmap dt.bytes = some e) :
    (dt.Delete os w).1 = (dt, some (.Errno e)) ∧
    Live (dt.Delete os w).1.1 (dt.Delete os w).2 ∧
    (dt.Delete os w).1.1.NbObjects = dt.NbObjects ∧
    ∃ n, 0 < n ∧ (dt.Delete os w).1.1.NbObjects = .ok n := by
  rw [Delete_error os dt w e he]
  have hL := hA.live
  obtain ⟨s, hs, hnb⟩ := hL.nbObjects
  refine ⟨rfl, hL, rfl, s.Len, ?_, hnb⟩
  obtain ⟨s1, _, hs1, _, _, _, hlen, _⟩ := hL
  rw [hs] at hs1
  cases hs1
  exact hlen

theorem Delete_failure_keeps_state_witness :
    (pointDatum.Delete (noUnmap 4096) stuckWorld).1 = (pointDatum, some (.Errno ENOMEM)) ∧
    Live (pointDatum.Delete (noUnmap 4096) stuckWorld).1.1
      (pointDatum.Delete (noUnmap 4096) stuckWorld).2 ∧
    (pointDatum.Delete (noUnmap 4096) stuckWorld).1.1.NbObjects = pointDatum.NbObjects ∧
    ∃ n, 0 < n ∧ (pointDatum.Delete (noUnmap 4096) stuckWorld).1.1.NbObjects = .ok n :=
  Delete_failure_keeps_state (noUnmap 4096) pointDatum stuckWorld stuckDatum_allocated
    ENOMEM (by decide)

/-- C11 (as stated) fails: on the Datum of `NewDatum(Point{0, 0}, 4)`, a
`Delete()` whose unmap request is refused with `ENOMEM` returns that error
and the Datum keeps `chunkSize = 32`, `objSize = 8`, its `bytes` and
`NbObjects() == 4`. -/
theorem failed_Delete_stays_allocated :
    (NewDatum (noUnmap 4096) (some point00) 4 World.init).1 = .ok (pointDatum, none) ∧
    (pointDatum.Delete (noUnmap 4096) stuckWorld).1 = (pointDatum, some (.Errno ENOMEM)) ∧
    (pointDatum.Delete (noUnmap 4096) stuckWorld).1.1.chunkSize = 32 ∧
    (pointDatum.Delete (noUnmap 4096) stuckWorld).1.1.objSize = 8 ∧
    (pointDatum.Delete (noUnmap 4096) stuckWorld).1.1.bytes = some { Data := 4096, Len := 32 } ∧
    (pointDatum.Delete (noUnmap 4096) stuckWorld).1.1.NbObjects = .ok 4 := by
  refine ⟨by decide, by decide, by decide, by decide, by decide, by decide⟩

/-- C12: `Delete()` on a Datum, allocated or not, whose unmap request succeeds
returns the nil error and leaves `chunkSize = 0`, `objSize = 1` and `bytes`
empty, so that `NbObjects()` returns 0 and does not divide by zero. -/
theorem Delete_success_postcondition (os : OS) (dt : Datum) (w : World)
    (he : os.Munmap dt.bytes = none) :
    (dt.Delete os w).1.2 = none ∧
    (dt.Delete os w).1.1.chunkSize = 0 ∧
    (dt.Delete os w).1.1.objSize = 1 ∧
    (dt.Delete os w).1.1.bytes = none ∧
    (dt.Delete os w).1.1.NbObjects = .ok 0 := by
  rw [Delete_success os dt w he]
  refine ⟨rfl, rfl, rfl, rfl, ?_⟩
  simp [Datum.NbObjects]

theorem Delete_success_postcondition_witness :
    (pointDatum.Delete (linux 4096) pointWorld).1.2 = none ∧
    (pointDatum.Delete (linux 4096) pointWorld).1.1.chunkSize = 0 ∧
    (pointDatum.Delete (linux 4096) pointWorld).1.1.objSize = 1 ∧
    (pointDatum.Delete (linux 4096) pointWorld).1.1.bytes = none ∧
    (pointDatum.Delete (linux 4096) pointWorld).1.1.NbObjects = .ok 0 :=
  Delete_success_postcondition (linux 4096) pointDatum pointWorld (by decide)

/-! ## Addresses -/

theorem Live.pointer {dt : Datum} {w : World} (h : Live dt w) (s : SliceValue)
    (hs : dt.slice = some s) (b : ByteSlice) (hb : dt.bytes = some b)
    (i : Int) (h0 : 0 ≤ i) (h1 : i < s.Len) :
    dt.Pointer i = .ok (b.Data + i.toNat * dt.objSize) := by
  have hl := h.len_lt s hs
  obtain ⟨s1, b1, hs1, hb1, hpos, hobj, _, hchunk, hmax, _, hblen, _⟩ := h
  rw [hs] at hs1
  cases hs1
  rw [hb] at hb1
  cases hb1
  have hma : maxAlloc = 2 ^ 48 := rfl
  have hw : toWord i = i.toNat := toWord_of_range i h0 (by omega)
  have hlt : i.toNat < s.Len := by omega
  have hmul : (i.toNat + 1) * dt.objSize ≤ s.Len * dt.objSize :=
    Nat.mul_le_mul_right _ (by omega)
  have e1 : (i.toNat + 1) * dt.objSize = i.toNat * dt.objSize + dt.objSize := by ring
  have e2 : dt.objSize * s.Len = s.Len * dt.objSize := Nat.mul_comm _ _
  have hidx : i.toNat * dt.objSize < dt.chunkSize := by omega
  have hmod : i.toNat * dt.objSize % 2 ^ 64 = i.toNat * dt.objSize :=
    Nat.mod_eq_of_lt (by omega)
  simp only [Datum.Pointer, hb, hw, hmod]
  rw [if_pos (by omega)]

/-- C13 (as amended): on an allocated Datum, for every index `i` with
`0 ≤ i` and `i + 1 < NbObjects()`, both `Pointer(i)` and `Pointer(i+1)` return
an address and `Pointer(i+1) - Pointer(i) == objSize`. -/
theorem Pointer_linear (os : OS) (dt : Datum) (w : World) (hA : Allocated os dt w)
    (N : Nat) (hN : dt.NbObjects = .ok N) (i : Int) (h0 : 0 ≤ i) (h1 : i + 1 < N) :
    ∃ p q, dt.Pointer i = .ok p ∧ dt.Pointer (i + 1) = .ok q ∧
      q = p + dt.objSize ∧ q - p = dt.objSize := by
  have hL := hA.live
  obtain ⟨s, hs, hnb⟩ := hL.nbObjects
  rw [hnb] at hN
  cases hN
  obtain ⟨_, b, _, hb, _⟩ := hL
  have hp := hA.live.pointer s hs b hb i h0 (by omega)
  have hq := hA.live.pointer s hs b hb (i + 1) (by omega) h1
  refine ⟨_, _, hp, hq, ?_, ?_⟩
  · have e : (i + 1).toNat = i.toNat + 1 := by omega
    rw [e]
    ring
  · have e : (i + 1).toNat = i.toNat + 1 := by omega
    rw [e]
    have e1 : (i.toNat + 1) * dt.objSize = i.toNat * dt.objSize + dt.objSize := by ring
    omega

theorem Pointer_linear_witness :
    ∃ p q, pointDatum.Pointer 2 = .ok p ∧ pointDatum.Pointer (2 + 1) = .ok q ∧
      q = p + pointDatum.objSize ∧ q - p = pointDatum.objSize :=
  Pointer_linear (linux 4096) pointDatum pointWorld pointDatum_allocated 4 (by decide)
    2 (by decide) (by decide)

/-- C13 (as stated) fails: on the Datum of `NewDatum(Point{0, 0}, 4)` the index
3 is valid and `Pointer(3)` returns an address, but `Pointer(3+1)` ends in the
index-out-of-range panic. -/
theorem Pointer_past_last_faults :
    pointDatum.NbObjects = .ok 4 ∧ (0 : Int) ≤ 3 ∧ (3 : Int) < (4 : Nat) ∧
    pointDatum.Pointer 3 = .ok 4120 ∧
    pointDatum.Pointer (3 + 1) = .error (.indexOutOfRange 32 32) := by
  refine ⟨by decide, by decide, by decide, by decide, by decide⟩

/-- C14: on the Datum of a successful `NewDatum(prototype, n)`, for a count `n`
of type `uint`, with `base` the address the operating system returned for the
mapping (the first byte of `bytes`, which is mapped), `Pointer(i)` returns
`base + i*objSize` for every `0 ≤ i < n`, and
`Pointer(j) - Pointer(i) == (j - i)*objSize` for valid `i ≤ j`. -/
theorem Pointer_formula (os : OS) (v : Iface) (n : Nat) (w : World)
    (dt : Datum) (w1 : World) (hn : n < 2 ^ 64)
    (h : NewDatum os v n w = (.ok (dt, none), w1)) :
    ∃ base, (∃ val, v = some val ∧ os.Mmap ((val.typ.Size * n : Nat) : Int) = .ok base) ∧
      dt.bytes = some { Data := base, Len := dt.chunkSize } ∧
      w1.mapped base = true ∧
      (∀ i : Int, 0 ≤ i → i < n → dt.Pointer i = .ok (base + i.toNat * dt.objSize)) ∧
      (∀ i j : Int, 0 ≤ i → i ≤ j → j < n →
        ∃ p q, dt.Pointer i = .ok p ∧ dt.Pointer j = .ok q ∧
          q - p = (j - i).toNat * dt.objSize) := by
  have hL := NewDatum_live os v n w dt w1 hn h
  obtain ⟨val, base, w2, hv, _, hn0, hsz, _, hos, hdt, _, _⟩ := NewDatum_ok os v n w dt w1 hn h
  have hs : dt.slice = some { elem := val.typ, Data := base, Len := n } := by rw [hdt]
  have hb : dt.bytes = some { Data := base, Len := dt.chunkSize } := by rw [hdt]
  have hptr : ∀ i : Int, 0 ≤ i → i < n → dt.Pointer i = .ok (base + i.toNat * dt.objSize) :=
    fun i h0 h1 => hL.pointer _ hs _ hb i h0 h1
  refine ⟨base, ⟨val, hv, hos⟩, hb, ?_, hptr, ?_⟩
  · obtain ⟨s, _, hs1, _, _, _, _, _, _, _, _, hmap⟩ := hL
    rw [hs] at hs1
    cases hs1
    apply hmap base (Nat.le_refl _)
    have : 0 < dt.chunkSize := by rw [hdt]; exact Nat.mul_pos hsz hn0
    simp only
    omega
  · intro i j h0 hij hj
    refine ⟨_, _, hptr i h0 (by omega), hptr j (by omega) hj, ?_⟩
    have e : j.toNat = i.toNat + (j - i).toNat := by omega
    rw [e]
    have e1 : (i.toNat + (j - i).toNat) * dt.objSize =
        i.toNat * dt.objSize + (j - i).toNat * dt.objSize := by ring
    omega

theorem Pointer_formula_witness :
    ∃ base, (∃ val, some point00 = some val ∧
        (linux 4096).Mmap ((val.typ.Size * 4 : Nat) : Int) = .ok base) ∧
      pointDatum.bytes = some { Data := base, Len := pointDatum.chunkSize } ∧
      pointWorld.mapped base = true ∧
      (∀ i : Int, 0 ≤ i → i < (4 : Nat) →
        pointDatum.Pointer i = .ok (base + i.toNat * pointDatum.objSize)) ∧
      (∀ i j : Int, 0 ≤ i → i ≤ j → j < (4 : Nat) →
        ∃ p q, pointDatum.Pointer i = .ok p ∧ pointDatum.Pointer j = .ok q ∧
          q - p = (j - i).toNat * pointDatum.objSize) :=
  Pointer_formula (linux 4096) (some point00) 4 World.init pointDatum pointWorld (by decide)
    pointDatum_new

/-! ## Bounds of `Read` -/

theorem toWord_negative (i : Int) (h0 : -2 ^ 63 ≤ i) (h1 : i < 0) : 2 ^ 63 ≤ toWord i := by
  simp only [toWord]
  omega

/-- C15: on an allocated Datum, `Read(i)` for an `int` `i` outside
`[0, NbObjects())`, negative or too large, ends in the index-out-of-range
panic of `reflect`; it returns no element. -/
theorem Read_out_of_range (os : OS) (dt : Datum) (w : World) (hA : Allocated os dt w)
    (N : Nat) (hN : dt.NbObjects = .ok N) (i : Int) (hlo : -2 ^ 63 ≤ i) (hhi : i < 2 ^ 63)
    (hout : i < 0 ∨ (N : Int) ≤ i) :
    dt.Read w i = .error (.panic "reflect: slice index out of range") := by
  have hL := hA.live
  obtain ⟨s, hs, hnb⟩ := hL.nbObjects
  rw [hnb] at hN
  cases hN
  have hl := hL.len_lt s hs
  have hle : s.Len ≤ toWord i := by
    rcases hout with hneg | hbig
    · have := toWord_negative i hlo hneg
      omega
    · rw [toWord_of_range i (by omega) (by omega)]
      omega
  simp only [Datum.Read, hs, SliceValue.Index]
  rw [if_pos hle]

theorem Read_out_of_range_witness :
    pointDatum.Read pointWorld (-1) = .error (.panic "reflect: slice index out of range") :=
  Read_out_of_range (linux 4096) pointDatum pointWorld pointDatum_allocated 4 (by decide)
    (-1) (by decide) (by decide) (Or.inl (by decide))

/-! ## The invariant of the allocated state -/

theorem Write_handle (dt : Datum) (i : Int) (v : Iface) (w : World) :
    (dt.Write i v w).2.1 = dt := by
  unfold Datum.Write
  split
  · rfl
  · split
    · rfl
    · split
      · rfl
      · split
        · rfl
        · split <;> rfl

/-- C16: every Datum returned by a successful `NewDatum`, and every state
reached from it by `Write` calls, has `objSize > 0`,
`chunkSize = objSize × count` and `len(bytes) = chunkSize`, where `count` is
the length of the view; the handle after any further `Write` has them too. -/
theorem allocated_invariant (os : OS) (dt : Datum) (w : World) (hA : Allocated os dt w) :
    dt.Sized ∧ ∀ (i : Int) (v : Iface), (dt.Write i v w).2.1.Sized := by
  have hS : dt.Sized := by
    obtain ⟨s, b, hs, hb, hpos, _, _, hchunk, _, _, hblen, _⟩ := hA.live
    exact ⟨s, b, hs, hb, hpos, hchunk, hblen⟩
  refine ⟨hS, ?_⟩
  intro i v
  rw [Write_handle]
  exact hS

theorem allocated_invariant_witness :
    pointDatum.Sized ∧
    ∀ (i : Int) (v : Iface), (pointDatum.Write i v pointWorld).2.1.Sized :=
  allocated_invariant (linux 4096) pointDatum pointWorld pointDatum_allocated

/-! ## The error of the type validator -/

theorem scalarKind_iff (k : Kind) : scalarKind k = true ↔ k ∈ flatKinds := by
  cases k <;> simp [scalarKind, flatKinds]

theorem first_leaf (k : Kind) :
    ([k].find? (fun k => decide (k ∉ flatKinds))).map invalidType =
      if scalarKind k then none else some (invalidType k) := by
  cases k <;> simp [scalarKind, flatKinds]

mutual
theorem typeValidate_first : (t : RType) →
    typeValidate t = (firstOffender t).map invalidType
  | .array _ elem => by
    simp only [typeValidate, firstOffender, leafKinds]
    exact typeValidate_first elem
  | .struct fields => by
    simp only [typeValidate, firstOffender, leafKinds]
    exact typeValidateFields_first fields
  | .named _ _ underlying => by
    simp only [typeValidate, firstOffender, leafKinds]
    exact typeValidate_first underlying
  | .basic b => by
    simp only [typeValidate, firstOffender, leafKinds, first_leaf]; rfl
  | .chan _ => by simp only [typeValidate, firstOffender, leafKinds, first_leaf]; rfl
  | .func => by simp only [typeValidate, firstOffender, leafKinds, first_leaf]; rfl
  | .interface => by simp only [typeValidate, firstOffender, leafKinds, first_leaf]; rfl
  | .map _ _ => by simp only [typeValidate, firstOffender, leafKinds, first_leaf]; rfl
  | .ptr _ => by simp only [typeValidate, firstOffender, leafKinds, first_leaf]; rfl
  | .slice _ => by simp only [typeValidate, firstOffender, leafKinds, first_leaf]; rfl
theorem typeValidateFields_first : (fs : Fields) →
    typeValidateFields fs =
      ((leafKindsFields fs).find? (fun k => decide (k ∉ flatKinds))).map invalidType
  | .nil => by simp [typeValidateFields, leafKindsFields]
  | .cons _ t rest => by
    have h1 := typeValidate_first t
    have h2 := typeValidateFields_first rest
    simp only [firstOffender] at h1
    simp only [typeValidateFields, leafKindsFields, List.find?_append]
    rw [h1, h2]
    cases (leafKinds t).find? (fun k => decide (k ∉ flatKinds)) <;> rfl
end

theorem typeValidateFields_append : (pre : Fields) → (gs : Fields) →
    typeValidateFields pre = none →
    typeValidateFields (pre.append gs) = typeValidateFields gs
  | .nil, gs, _ => rfl
  | .cons _ t rest, gs, h => by
    simp only [typeValidateFields] at h
    simp only [Fields.append, typeValidateFields]
    cases ht : typeValidate t with
    | some err => simp [ht] at h
    | none =>
      simp only [ht] at h
      exact typeValidateFields_append rest gs h

mutual
theorem leafKinds_leaf : (t : RType) →
    ∀ k ∈ leafKinds t, k ≠ .Array ∧ k ≠ .Struct ∧ k ≠ .Invalid
  | .array _ elem => by
    simp only [leafKinds]
    exact leafKinds_leaf elem
  | .struct fields => by
    simp only [leafKinds]
    exact leafKindsFields_leaf fields
  | .named _ _ underlying => by
    simp only [leafKinds]
    exact leafKinds_leaf underlying
  | .basic b => by
    cases b <;> simp [leafKinds, RType.Kind, Basic.Kind]
  | .chan _ => by simp [leafKinds, RType.Kind]
  | .func => by simp [leafKinds, RType.Kind]
  | .interface => by simp [leafKinds, RType.Kind]
  | .map _ _ => by simp [leafKinds, RType.Kind]
  | .ptr _ => by simp [leafKinds, RType.Kind]
  | .slice _ => by simp [leafKinds, RType.Kind]
theorem leafKindsFields_leaf : (fs : Fields) →
    ∀ k ∈ leafKindsFields fs, k ≠ .Array ∧ k ≠ .Struct ∧ k ≠ .Invalid
  | .nil => by simp [leafKindsFields]
  | .cons _ t rest => by
    intro k hk
    simp only [leafKindsFields, List.mem_append] at hk
    rcases hk with hk | hk
    · exact leafKinds_leaf t k hk
    · exact leafKindsFields_leaf rest k hk
end

theorem offender_message (k : Kind) (h1 : k ∉ flatKinds) (h2 : k ≠ .Array) (h3 : k ≠ .Struct)
    (h4 : k ≠ .Invalid) :
    (k, "invalid type: " ++ quote (kindString k)) ∈ offenderMessages := by
  cases k <;> first
    | exact absurd rfl h2
    | exact absurd rfl h3
    | exact absurd rfl h4
    | exact absurd (by decide) h1
    | decide

/-- C17: for a type with a leaf that is not flat, `typeValidate` returns the
error whose message is "invalid type: " followed by the quoted name of the
kind of the first such leaf in depth-first order, one of the seven written
out in `offenderMessages`; and when the type is a field that follows accepted
fields of a struct, the struct gets that same error whatever fields come
after it. -/
theorem typeValidate_names_first_offender (t : RType)
    (h : ∃ k ∈ leafKinds t, k ∉ flatKinds) :
    (∃ k, firstOffender t = some k ∧ k ∈ leafKinds t ∧ k ∉ flatKinds ∧
      typeValidate t = some (.Error ("invalid type: " ++ quote (kindString k))) ∧
      ∃ msg, (k, msg) ∈ offenderMessages ∧ typeValidate t = some (.Error msg)) ∧
    ∀ (pre : Fields) (f : StructField) (rest : Fields), typeValidateFields pre = none →
      typeValidate (.struct (pre.append (.cons f t rest))) = typeValidate t := by
  have hne : typeValidate t ≠ none := by
    intro hn
    obtain ⟨k, hk1, hk2⟩ := h
    exact hk2 ((typeValidate_none_iff t).mp hn k hk1)
  constructor
  · have hf := typeValidate_first t
    cases ho : firstOffender t with
    | none =>
      rw [ho] at hf
      exact absurd hf hne
    | some k =>
      rw [ho] at hf
      have hmem : k ∈ leafKinds t := List.mem_of_find?_eq_some ho
      have hnf : k ∉ flatKinds := by
        have := List.find?_some ho
        simpa using this
      obtain ⟨h2, h3, h4⟩ := leafKinds_leaf t k hmem
      exact ⟨k, rfl, hmem, hnf, hf, _, offender_message k hnf h2 h3 h4, hf⟩
  · intro pre f rest hpre
    simp only [typeValidate]
    rw [typeValidateFields_append pre _ hpre]
    simp only [typeValidateFields]
    cases ht : typeValidate t with
    | none => exact absurd ht hne
    | some err => rfl

theorem typeValidate_names_first_offender_witness :
    ((∃ k, firstOffender stringThenSlice = some k ∧ k ∈ leafKinds stringThenSlice ∧
        k ∉ flatKinds ∧
        typeValidate stringThenSlice =
          some (.Error ("invalid type: " ++ quote (kindString k))) ∧
        ∃ msg, (k, msg) ∈ offenderMessages ∧
          typeValidate stringThenSlice = some (.Error msg)) ∧
      ∀ (pre : Fields) (f : StructField) (rest : Fields), typeValidateFields pre = none →
        typeValidate (.struct (pre.append (.cons f stringThenSlice rest))) =
          typeValidate stringThenSlice) ∧
    firstOffender stringThenSlice = some .String ∧
    typeValidate stringThenSlice = some (.Error "invalid type: \"string\"") ∧
    typeValidate (.ptr Point) = some (.Error "invalid type: \"ptr\"") ∧
    [Kind.Invalid, .Bool, .Int, .Int8, .Int16, .Int32, .Int64, .Uint, .Uint8, .Uint16,
      .Uint32, .Uint64, .Uintptr, .Float32, .Float64, .Complex64, .Complex128, .Array,
      .Chan, .Func, .Interface, .Map, .Pointer, .Slice, .String, .Struct,
      .UnsafePointer].map kindString =
      ["invalid", "bool", "int", "int8", "int16", "int32", "int64", "uint", "uint8",
        "uint16", "uint32", "uint64", "uintptr", "float32", "float64", "complex64",
        "complex128", "array", "chan", "func", "interface", "map", "ptr", "slice",
        "string", "struct", "unsafe.Pointer"] :=
  ⟨typeValidate_names_first_offender stringThenSlice ⟨Kind.String, by decide, by decide⟩,
    by decide, by decide, by decide, by decide⟩

/-! ## The finalizer -/

/-- C18: after `NewDatum(Point{0, 0}, 4)` and a successful `Delete()` on the
returned handle, the object the finalizer is registered on still holds its
`bytes`; when the finalizer fires, it passes its guard and a second unmap
request for the same region is issued. -/
theorem finalizer_unmaps_again :
    (NewDatum (linux 4096) (some point00) 4 World.init).1 = .ok (pointDatum, none) ∧
    (pointDatum.Delete (linux 4096) pointWorld).1 = (deletedPoint, none) ∧
    deletedPoint.bytes = none ∧
    deletedWorld.finalizers = [pointDatum] ∧
    pointDatum.bytes = some { Data := 4096, Len := 32 } ∧
    deletedWorld.requests = [.mmap 32, .munmap (some { Data := 4096, Len := 32 })] ∧
    (fireFinalizer (linux 4096) deletedWorld).requests =
      [.mmap 32, .munmap (some { Data := 4096, Len := 32 }),
       .munmap (some { Data := 4096, Len := 32 })] := by
  refine ⟨by decide, by decide, by decide, by decide, by decide, by decide, by decide⟩

/-! ## `Pointer` and word arithmetic -/

/-- C19: on the Datum of `NewDatum(Point{0, 0}, 4)`, with `objSize = 8`, the
indices `2^61`, `-2^61` and `2^61 + 1` are `int` values outside `[0, 4)`, yet
`uintptr(i)*objSize` wraps to 0, 0 and 8 and `Pointer` returns the addresses
of slot 0, slot 0 and slot 1 instead of faulting. -/
theorem Pointer_wraps_into_region :
    pointDatum.NbObjects = .ok 4 ∧ pointDatum.objSize = 8 ∧
    ((4 : Int) ≤ 2 ^ 61 ∧ (2 ^ 61 + 1 : Int) < 2 ^ 63 ∧ (-2 ^ 63 : Int) ≤ -2 ^ 61 ∧
      (-2 ^ 61 : Int) < 0) ∧
    pointDatum.Pointer (2 ^ 61) = .ok 4096 ∧
    pointDatum.Pointer (-2 ^ 61) = .ok 4096 ∧
    pointDatum.Pointer (2 ^ 61 + 1) = .ok 4104 ∧
    pointDatum.Pointer 0 = .ok 4096 ∧ pointDatum.Pointer 1 = .ok 4104 := by
  refine ⟨by decide, by decide, by decide, by decide, by decide, by decide, by decide,
    by decide⟩

/-! ## `NbObjects` never divides by zero -/

theorem Delete_handle (os : OS) (dt : Datum) (w : World) :
    (dt.Delete os w).1.1 = dt ∨
    (dt.Delete os w).1 = ({ dt with chunkSize := 0, objSize := 1, bytes := none }, none) := by
  cases he : os.Munmap dt.bytes with
  | some e => left; rw [Delete_error os dt w e he]
  | none => right; exact Delete_success os dt w he

theorem Reached.fields {os : OS} {n : Nat} {d : Bool} {dt : Datum} {w : World}
    (h : Reached os n d dt w) :
    if d then dt.chunkSize = 0 ∧ dt.objSize = 1
    else 0 < dt.objSize ∧ dt.chunkSize = dt.objSize * n := by
  induction h with
  | new v w dt w1 hn hnew =>
    obtain ⟨val, base, w2, _, _, _, hsz, _, _, hdt, _, _⟩ := NewDatum_ok os v n w dt w1 hn hnew
    simp only [Bool.false_eq_true, if_false]
    rw [hdt]
    exact ⟨hsz, rfl⟩
  | write d dt w i v _ ih =>
    rw [Write_handle]
    exact ih
  | deleteOk d dt w dt1 w1 _ hdel _ =>
    obtain ⟨hdt, _⟩ := Delete_ok_fields os dt w dt1 w1 hdel
    simp only [if_true]
    rw [hdt]
    exact ⟨rfl, rfl⟩
  | deleteFail d dt w dt1 err w1 _ hdel ih =>
    rcases Delete_handle os dt w with h1 | h2
    · rw [hdel] at h1
      simp only at h1
      rw [h1]
      exact ih
    · rw [hdel] at h2
      simp at h2

/-- C20: on every state reached from a successful `NewDatum(v, n)`, for a
count `n` of type `uint`, by any sequence of `Write` calls and of `Delete`
calls that succeed or fail, `objSize` is not zero and `NbObjects()` returns a
value: `n` as long as no `Delete` has succeeded and 0 afterwards. -/
theorem NbObjects_defined (os : OS) (n : Nat) (d : Bool) (dt : Datum) (w : World)
    (h : Reached os n d dt w) :
    dt.objSize ≠ 0 ∧ dt.NbObjects = .ok (if d then 0 else n) := by
  have hf := h.fields
  cases d with
  | true =>
    simp only [if_true] at hf ⊢
    obtain ⟨h0, h1⟩ := hf
    refine ⟨by omega, ?_⟩
    simp [Datum.NbObjects, h0, h1]
  | false =>
    simp only [Bool.false_eq_true, if_false] at hf ⊢
    obtain ⟨hpos, hchunk⟩ := hf
    refine ⟨by omega, ?_⟩
    simp only [Datum.NbObjects]
    rw [if_neg (by omega), hchunk, Nat.mul_div_cancel_left _ hpos]

theorem NbObjects_defined_witness :
    deletedPoint.objSize ≠ 0 ∧ deletedPoint.NbObjects = .ok (if true then 0 else 4) :=
  NbObjects_defined (linux 4096) 4 true deletedPoint deletedWorld
    (Reached.deleteOk false pointDatum pointWorld deletedPoint deletedWorld
      (Reached.write false pointDatum pointWorld 9 none
        (Reached.new (some point00) World.init pointDatum pointWorld (by decide) pointDatum_new))
      (Prod.ext (by decide) rfl))

end Nogc
